import Mathlib

/-!
# Verification of the Schema-Visualizer core

Shallow embedding of the schema-extraction and path-routing core of the
Schema-Visualizer repository, together with proofs and refutations of the
frozen specification claims.

Coordinates are JavaScript numbers in the source; the routing and parsing
logic only ever adds, subtracts, compares and rounds them, so they are
embedded as `Int` (exact for the integral values the algorithms manipulate).
-/

namespace SchemaViz

/-! ## Pathfinding (`src/utils/pathfinding.ts`) -/

structure Point where
  x : Int
  y : Int
deriving DecidableEq, Repr

structure Rect where
  x : Int
  y : Int
  width : Int
  height : Int
deriving DecidableEq, Repr

structure Bounds where
  width : Int
  height : Int
deriving DecidableEq, Repr

def GRID_SIZE : Int := 20

/-- A search node: position, accumulated cost `g`, heuristic `h`, total `f`,
and the optional parent link (`root` is the parentless start node). -/
inductive Node where
  | root (x y g h f : Int)
  | child (x y g h f : Int) (parent : Node)
deriving Repr

def Node.x : Node → Int
  | .root x _ _ _ _ => x
  | .child x _ _ _ _ _ => x

def Node.y : Node → Int
  | .root _ y _ _ _ => y
  | .child _ y _ _ _ _ => y

def Node.g : Node → Int
  | .root _ _ g _ _ => g
  | .child _ _ g _ _ _ => g

def Node.h : Node → Int
  | .root _ _ _ h _ => h
  | .child _ _ _ h _ _ => h

def Node.f : Node → Int
  | .root _ _ _ _ f => f
  | .child _ _ _ _ f _ => f

def Node.pos (n : Node) : Int × Int := (n.x, n.y)

@[simp] theorem Node.x_root (x y g h f : Int) : (Node.root x y g h f).x = x := rfl
@[simp] theorem Node.y_root (x y g h f : Int) : (Node.root x y g h f).y = y := rfl
@[simp] theorem Node.g_root (x y g h f : Int) : (Node.root x y g h f).g = g := rfl
@[simp] theorem Node.h_root (x y g h f : Int) : (Node.root x y g h f).h = h := rfl
@[simp] theorem Node.f_root (x y g h f : Int) : (Node.root x y g h f).f = f := rfl
@[simp] theorem Node.pos_root (x y g h f : Int) :
    (Node.root x y g h f).pos = (x, y) := rfl

@[simp] theorem Node.x_child (x y g h f : Int) (p : Node) :
    (Node.child x y g h f p).x = x := rfl
@[simp] theorem Node.y_child (x y g h f : Int) (p : Node) :
    (Node.child x y g h f p).y = y := rfl
@[simp] theorem Node.g_child (x y g h f : Int) (p : Node) :
    (Node.child x y g h f p).g = g := rfl
@[simp] theorem Node.h_child (x y g h f : Int) (p : Node) :
    (Node.child x y g h f p).h = h := rfl
@[simp] theorem Node.f_child (x y g h f : Int) (p : Node) :
    (Node.child x y g h f p).f = f := rfl
@[simp] theorem Node.pos_child (x y g h f : Int) (p : Node) :
    (Node.child x y g h f p).pos = (x, y) := rfl

theorem Node.pos_eq (n : Node) : n.pos = (n.x, n.y) := rfl

/-- `reconstructPath` walks parent links back to the start, producing the
point sequence in start-to-end order (the source `unshift`s while walking). -/
def reconstructPath : Node → List Point
  | .root x y _ _ _ => [⟨x, y⟩]
  | .child x y _ _ _ p => reconstructPath p ++ [⟨x, y⟩]

/-- A node is blocked when it falls within any obstacle rectangle expanded by
one `GRID_SIZE` of buffer on all sides (inclusive comparisons, as in the
source). -/
def isObstacle (x y : Int) (obstacles : List Rect) : Bool :=
  obstacles.any fun obs =>
    decide (obs.x - GRID_SIZE ≤ x ∧ x ≤ obs.x + obs.width + GRID_SIZE ∧
      obs.y - GRID_SIZE ≤ y ∧ y ≤ obs.y + obs.height + GRID_SIZE)

/-- Select the open node with the lowest `f` (first strict minimum wins, as in
the source's linear scan), returning it together with the remaining open list
in order. -/
def selectMin : Node → List Node → Node × List Node
  | best, [] => (best, [])
  | best, n :: rest =>
    if n.f < best.f then ((selectMin n rest).1, best :: (selectMin n rest).2)
    else ((selectMin best rest).1, n :: (selectMin best rest).2)

/-- Push a fresh node at the end of the open list when its position is not yet
open; otherwise relax the existing entry in place when the new accumulated
cost is strictly smaller (`g`, `f` and parent updated, `h` kept). -/
def insertOrRelax (px py g h f : Int) (current : Node) : List Node → List Node
  | [] => [Node.child px py g h f current]
  | n :: rest =>
    if n.x = px ∧ n.y = py then
      if g < n.g then Node.child px py g n.h f current :: rest
      else n :: rest
    else n :: insertOrRelax px py g h f current rest

/-- Handle one 4-directional neighbor of the node being expanded: skip closed,
blocked or out-of-bounds positions, otherwise insert or relax. -/
def processNeighbor (obstacles : List Rect) (bounds : Bounds) (ex ey : Int)
    (current : Node) (closed : List (Int × Int)) (openL : List Node)
    (p : Int × Int) : List Node :=
  if p ∈ closed then openL
  else if isObstacle p.1 p.2 obstacles then openL
  else if p.1 < 0 ∨ p.2 < 0 ∨ p.1 > bounds.width ∨ p.2 > bounds.height then openL
  else
    let g := current.g + GRID_SIZE
    let h : Int := ((p.1 - ex).natAbs : Int) + ((p.2 - ey).natAbs : Int)
    insertOrRelax p.1 p.2 g h (g + h) current openL

def neighborsOf (c : Node) : List (Int × Int) :=
  [(c.x + GRID_SIZE, c.y), (c.x - GRID_SIZE, c.y),
   (c.x, c.y + GRID_SIZE), (c.x, c.y - GRID_SIZE)]

def expandNode (obstacles : List Rect) (bounds : Bounds) (ex ey : Int)
    (current : Node) (closed : List (Int × Int)) (openL : List Node) : List Node :=
  (neighborsOf current).foldl (processNeighbor obstacles bounds ex ey current closed) openL

inductive SearchOut where
  | found (path : List Point)
  | exhausted
deriving DecidableEq, Repr

/-- The A* main loop. `some (.found p)` means the goal test succeeded on the
lowest-`f` open node, `some .exhausted` means the open list emptied (the
source then falls back to the direct segment). The `Nat` argument is
step fuel: the source loop terminates because every iteration moves a fresh
in-bounds grid position to the closed set, and `searchFuel` below exceeds the
number of such positions, so the fuel never runs out (`none` is unreachable
from `findPath`; see `aStarLoop_fuel_sufficient`). -/
def aStarLoop (obstacles : List Rect) (bounds : Bounds) (ex ey : Int) :
    Nat → List Node → List (Int × Int) → Option SearchOut
  | 0, _, _ => none
  | _ + 1, [], _ => some .exhausted
  | fuel + 1, n0 :: ns, closed =>
    let sel := selectMin n0 ns
    let current := sel.1
    if (current.x - ex).natAbs < 20 ∧ (current.y - ey).natAbs < 20 then
      some (.found (reconstructPath current))
    else
      let closed2 := (current.x, current.y) :: closed
      let open2 := expandNode obstacles bounds ex ey current closed2 sel.2
      aStarLoop obstacles bounds ex ey fuel open2 closed2

/-- `Math.round(a / GRID_SIZE) * GRID_SIZE`: for an integer coordinate `a`,
JavaScript `Math.round` (half toward positive infinity) of `a / 20` equals
`⌊(a + 10) / 20⌋`. -/
def snapToGrid (a : Int) : Int := GRID_SIZE * ((a + 10).fdiv 20)

/-- Fuel bound: one more than the number of grid positions that can ever be
opened (the in-bounds lattice plus the possibly out-of-bounds start). -/
def searchFuel (bounds : Bounds) : Nat :=
  ((bounds.width.toNat / 20) + 1) * ((bounds.height.toNat / 20) + 1) + 2

def findPath (start endPt : Point) (obstacles : List Rect) (bounds : Bounds) :
    List Point :=
  let sx := snapToGrid start.x
  let sy := snapToGrid start.y
  let ex := snapToGrid endPt.x
  let ey := snapToGrid endPt.y
  let startNode := Node.root sx sy 0 0 0
  match aStarLoop obstacles bounds ex ey (searchFuel bounds) [startNode] [] with
  | some (.found p) => p
  | some .exhausted => [start, endPt]
  | none => [start, endPt]

/-- `Math.sign` restricted to integers. -/
def jsSign (a : Int) : Int := if 0 < a then 1 else if a < 0 then -1 else 0

/-- Interior loop of `smoothPath`: `prev` is the last kept point, the list
holds the remaining points; the final point is always kept. -/
def smoothGo (prev : Point) : List Point → List Point
  | [] => []
  | [last] => [last]
  | curr :: next :: rest =>
    if jsSign (curr.x - prev.x) = jsSign (next.x - curr.x) ∧
        jsSign (curr.y - prev.y) = jsSign (next.y - curr.y) then
      smoothGo prev (next :: rest)
    else
      curr :: smoothGo curr (next :: rest)

/-- Drop interior points that do not change travel direction; sequences
shorter than 3 points are returned unchanged. -/
def smoothPath (path : List Point) : List Point :=
  if path.length < 3 then path
  else
    match path with
    | [] => path
    | p0 :: rest => p0 :: smoothGo p0 rest

/-! ## Canonical schema model (`src/types/schema.ts`) -/

structure ColRef where
  table : String
  column : String
deriving DecidableEq, Repr

structure Column where
  name : String
  type : String
  isPrimaryKey : Bool
  isForeignKey : Bool
  isNullable : Bool
  references : Option ColRef := none
deriving DecidableEq, Repr

structure Table where
  id : String
  name : String
  columns : List Column
deriving DecidableEq, Repr

structure Relationship where
  id : String
  fromTable : String
  fromColumn : String
  toTable : String
  toColumn : String
deriving DecidableEq, Repr

structure Schema where
  tables : List Table
  relationships : List Relationship
deriving DecidableEq, Repr

/-! ## SQL extractor (`src/utils/sqlParser.ts`)

The extractor is regex-driven in the source.  Each regex is transcribed here
as a deterministic matcher over `List Char`; the transcriptions follow the
JavaScript semantics of the concrete patterns (leftmost match, greedy
quantifiers — for these patterns backtracking never changes the outcome,
because each quantified class is disjoint from the token that follows it). -/

/-- JavaScript `\s` on the ASCII range. -/
def jsIsSpace (c : Char) : Bool :=
  c == ' ' || c == '\t' || c == '\n' || c == '\r' || c == '\x0b' || c == '\x0c'

/-- JavaScript `\w`: `[A-Za-z0-9_]`. -/
def isWordChar (c : Char) : Bool := c.isAlpha || c.isDigit || c == '_'

def lowerChars (l : List Char) : List Char := l.map Char.toLower

def upperChars (l : List Char) : List Char := l.map Char.toUpper

/-- `.replace(/\/\*[\s\S]*?\*\//g, '')`: remove each block comment through
its nearest closing; an unclosed `/*` is kept verbatim (the second argument
buffers the pending comment text, reversed, for that case). -/
def stripBlockAux : List Char → Option (List Char) → List Char
  | [], none => []
  | [], some buf => buf.reverse
  | '/' :: '*' :: rest, none => stripBlockAux rest (some ['*', '/'])
  | c :: rest, none => c :: stripBlockAux rest none
  | '*' :: '/' :: rest, some _ => stripBlockAux rest none
  | c :: rest, some buf => stripBlockAux rest (some (c :: buf))

/-- `.replace` of pattern `--.*$` (flags `gm`): from each `--` to the end of
its line. -/
def stripLineAux : Bool → List Char → List Char
  | _, [] => []
  | true, c :: rest =>
    if c == '\n' || c == '\r' then c :: stripLineAux false rest
    else stripLineAux true rest
  | false, '-' :: '-' :: rest => stripLineAux true rest
  | false, c :: rest => c :: stripLineAux false rest

/-- `.replace(/\s+/g, ' ')`: collapse whitespace runs to single spaces. -/
def collapseWSAux : Bool → List Char → List Char
  | _, [] => []
  | prevSp, c :: rest =>
    if jsIsSpace c then
      if prevSp then collapseWSAux true rest
      else ' ' :: collapseWSAux true rest
    else c :: collapseWSAux false rest

/-- `String.prototype.trim`. -/
def trimChars (l : List Char) : List Char :=
  ((l.dropWhile jsIsSpace).reverse.dropWhile jsIsSpace).reverse

def cleanSQL (l : List Char) : List Char :=
  trimChars (collapseWSAux false (stripLineAux false (stripBlockAux l none)))

/-- Case-insensitive literal match, returning the rest of the input. -/
def matchKeyword : List Char → List Char → Option (List Char)
  | [], l => some l
  | _ :: _, [] => none
  | k :: ks, c :: cs => if c.toUpper == k.toUpper then matchKeyword ks cs else none

/-- `\s+`: at least one whitespace character, consumed greedily. -/
def matchSpaces1 : List Char → Option (List Char)
  | c :: cs => if jsIsSpace c then some (cs.dropWhile jsIsSpace) else none
  | [] => none

/-- `\s*`. -/
def skipSpaces (l : List Char) : List Char := l.dropWhile jsIsSpace

/-- `(\w+)`: maximal nonempty word-character run. -/
def matchWord (l : List Char) : Option (List Char × List Char) :=
  let w := l.takeWhile isWordChar
  if w.isEmpty then none else some (w, l.dropWhile isWordChar)

/-- Split a list at its last `')'`, returning the parts before and after it. -/
def splitAtLastClose : List Char → Option (List Char × List Char)
  | [] => none
  | c :: rest =>
    match splitAtLastClose rest with
    | some (a, b) => some (c :: a, b)
    | none => if c == ')' then some ([], rest) else none

/-- `(\w+)\s*\(([^;]+)\);?` — table name, greedy body (up to the last `')'`
before the next `';'`), optional trailing semicolon; returns
(name, body, rest-after-match). -/
def matchNameBody (l : List Char) : Option (List Char × List Char × List Char) := do
  let (name, r1) ← matchWord l
  match skipSpaces r1 with
  | '(' :: r3 =>
    let w := r3.takeWhile (fun c => c != ';')
    let afterW := r3.dropWhile (fun c => c != ';')
    match splitAtLastClose w with
    | none => none
    | some (body, afterClose) =>
      if body.isEmpty then none
      else
        match afterClose ++ afterW with
        | ';' :: t => some (name, body, t)
        | r => some (name, body, r)
  | _ => none

/-- `IF\s+NOT\s+EXISTS\s+`. -/
def matchIfNotExists (l : List Char) : Option (List Char) := do
  let r1 ← matchKeyword "IF".toList l
  let r2 ← matchSpaces1 r1
  let r3 ← matchKeyword "NOT".toList r2
  let r4 ← matchSpaces1 r3
  let r5 ← matchKeyword "EXISTS".toList r4
  matchSpaces1 r5

/-- One attempt of `/CREATE\s+TABLE\s+(?:IF\s+NOT\s+EXISTS\s+)?(\w+)\s*\(([^;]+)\);?/i`
at the current position. -/
def matchCreate (l : List Char) : Option (List Char × List Char × List Char) := do
  let r1 ← matchKeyword "CREATE".toList l
  let r2 ← matchSpaces1 r1
  let r3 ← matchKeyword "TABLE".toList r2
  let r4 ← matchSpaces1 r3
  match matchIfNotExists r4 with
  | some r5 =>
    match matchNameBody r5 with
    | some out => some out
    | none => matchNameBody r4
  | none => matchNameBody r4

/-- The global `exec` loop: successive non-overlapping leftmost matches.  The
fuel decreases at least once per scanned character (every match consumes at
least the `CREATE` keyword), so `length + 1` fuel is never exhausted. -/
def scanCreatesF : Nat → List Char → List (List Char × List Char)
  | 0, _ => []
  | _ + 1, [] => []
  | fuel + 1, c :: rest =>
    match matchCreate (c :: rest) with
    | some (name, body, remaining) => (name, body) :: scanCreatesF fuel remaining
    | none => scanCreatesF fuel rest

def scanCreates (l : List Char) : List (List Char × List Char) :=
  scanCreatesF (l.length + 1) l

/-- `splitColumns`: split the statement body on top-level commas only (the
depth counter tracks parenthesis nesting); each piece is trimmed, and a final
empty piece is dropped. -/
def splitColumnsGo : List Char → Int → List Char → List (List Char)
  | [], _, cur =>
    let t := trimChars cur.reverse
    if t.isEmpty then [] else [t]
  | c :: rest, depth, cur =>
    if c == '(' then splitColumnsGo rest (depth + 1) (c :: cur)
    else if c == ')' then splitColumnsGo rest (depth - 1) (c :: cur)
    else if c == ',' && depth == 0 then trimChars cur.reverse :: splitColumnsGo rest depth []
    else splitColumnsGo rest depth (c :: cur)

def splitColumns (l : List Char) : List (List Char) := splitColumnsGo l 0 []

def isPrefixOfCh : List Char → List Char → Bool
  | [], _ => true
  | _ :: _, [] => false
  | p :: ps, c :: cs => p == c && isPrefixOfCh ps cs

/-- `String.prototype.includes` (substring test). -/
def containsSub (pat : List Char) : List Char → Bool
  | [] => isPrefixOfCh pat []
  | c :: rest => isPrefixOfCh pat (c :: rest) || containsSub pat rest

/-- `String.prototype.split(',')`. -/
def splitCommas : List Char → List (List Char)
  | [] => [[]]
  | c :: rest =>
    match splitCommas rest with
    | seg :: segs => if c == ',' then [] :: seg :: segs else (c :: seg) :: segs
    | [] => [[c]]

/-- One attempt of `/PRIMARY\s+KEY\s*\(([^)]+)\)/i`; returns the captured
column list. -/
def matchPKHere (l : List Char) : Option (List Char) := do
  let r1 ← matchKeyword "PRIMARY".toList l
  let r2 ← matchSpaces1 r1
  let r3 ← matchKeyword "KEY".toList r2
  match skipSpaces r3 with
  | '(' :: r5 =>
    let grp := r5.takeWhile (fun c => c != ')')
    match r5.dropWhile (fun c => c != ')') with
    | ')' :: _ => if grp.isEmpty then none else some grp
    | _ => none
  | _ => none

def findPK : List Char → Option (List Char)
  | [] => none
  | c :: rest =>
    match matchPKHere (c :: rest) with
    | some g => some g
    | none => findPK rest

/-- One attempt of
`/FOREIGN\s+KEY\s*\((\w+)\)\s*REFERENCES\s*(\w+)\s*\((\w+)\)/i`. -/
def matchFKHere (l : List Char) : Option (List Char × List Char × List Char) := do
  let r1 ← matchKeyword "FOREIGN".toList l
  let r2 ← matchSpaces1 r1
  let r3 ← matchKeyword "KEY".toList r2
  match skipSpaces r3 with
  | '(' :: r5 => do
    let (col, r6) ← matchWord r5
    match r6 with
    | ')' :: r7 => do
      let r9 ← matchKeyword "REFERENCES".toList (skipSpaces r7)
      let (tbl, r11) ← matchWord (skipSpaces r9)
      match skipSpaces r11 with
      | '(' :: r13 => do
        let (refc, r14) ← matchWord r13
        match r14 with
        | ')' :: _ => some (col, tbl, refc)
        | _ => none
      | _ => none
    | _ => none
  | _ => none

def findFK : List Char → Option (List Char × List Char × List Char)
  | [] => none
  | c :: rest =>
    match matchFKHere (c :: rest) with
    | some g => some g
    | none => findFK rest

/-- One attempt of `/REFERENCES\s+(\w+)\s*\((\w+)\)/i`. -/
def matchRefHere (l : List Char) : Option (List Char × List Char) := do
  let r1 ← matchKeyword "REFERENCES".toList l
  let r2 ← matchSpaces1 r1
  let (tbl, r3) ← matchWord r2
  match skipSpaces r3 with
  | '(' :: r5 => do
    let (c, r6) ← matchWord r5
    match r6 with
    | ')' :: _ => some (tbl, c)
    | _ => none
  | _ => none

def findRef : List Char → Option (List Char × List Char)
  | [] => none
  | c :: rest =>
    match matchRefHere (c :: rest) with
    | some g => some g
    | none => findRef rest

/-- `/^(\w+)\s+(\w+(?:\(\d+(?:,\s*\d+)?\))?)/i` — leading identifier as the
column name, following identifier (with optional parenthesized size suffix,
captured verbatim) as the type. -/
def matchColDef (l : List Char) : Option (List Char × List Char) := do
  let (name, r1) ← matchWord l
  let r2 ← matchSpaces1 r1
  let (ty, r3) ← matchWord r2
  match r3 with
  | '(' :: r4 =>
    let ds := r4.takeWhile Char.isDigit
    let r5 := r4.dropWhile Char.isDigit
    if ds.isEmpty then some (name, ty)
    else
      match r5 with
      | ')' :: _ => some (name, ty ++ '(' :: ds ++ [')'])
      | ',' :: r6 =>
        let sp := r6.takeWhile jsIsSpace
        let r7 := r6.dropWhile jsIsSpace
        let ds2 := r7.takeWhile Char.isDigit
        let r8 := r7.dropWhile Char.isDigit
        if ds2.isEmpty then some (name, ty)
        else
          match r8 with
          | ')' :: _ => some (name, ty ++ '(' :: ds ++ ',' :: sp ++ ds2 ++ [')'])
          | _ => some (name, ty)
      | _ => some (name, ty)
  | _ => some (name, ty)

/-- Mark the first already-declared column whose lowercased name matches as a
primary key (`col.isPrimaryKey = true`). -/
def markPK (nameLC : List Char) : List Column → List Column
  | [] => []
  | col :: cols =>
    if lowerChars col.name.toList == nameLC then
      { col with isPrimaryKey := true } :: cols
    else col :: markPK nameLC cols

/-- Mark the first already-declared column whose lowercased name matches as a
foreign key with its `references` target. -/
def markFK (nameLC : List Char) (tbl col : List Char) : List Column → List Column
  | [] => []
  | c :: cs =>
    if lowerChars c.name.toList == nameLC then
      { c with isForeignKey := true,
               references := some ⟨String.mk tbl, String.mk col⟩ } :: cs
    else c :: markFK nameLC tbl col cs

/-- Relationship id `` `${tableName}_${colName}_${refTable}_${refColumn}` ``. -/
def mkRel (tableName colName refT refC : List Char) : Relationship :=
  { id := String.mk (tableName ++ '_' :: colName ++ '_' :: refT ++ '_' :: refC),
    fromTable := String.mk tableName, fromColumn := String.mk colName,
    toTable := String.mk refT, toColumn := String.mk refC }

/-- Per-clause classification, in the source's priority order: table-level
`PRIMARY KEY`, table-level `FOREIGN KEY`, `CONSTRAINT` (skipped), otherwise a
column definition. -/
def processClause (tableName : List Char) (cols : List Column)
    (rels : List Relationship) (clauseRaw : List Char) :
    List Column × List Relationship :=
  let trimmed := trimChars clauseRaw
  if trimmed.isEmpty then (cols, rels)
  else
    let up := upperChars trimmed
    if isPrefixOfCh "PRIMARY KEY".toList up then
      match findPK trimmed with
      | some grp =>
        let pkCols := (splitCommas grp).map
          (fun c => (trimChars c).filter (fun ch => ch != '"'))
        (pkCols.foldl (fun cs pk => markPK (lowerChars pk) cs) cols, rels)
      | none => (cols, rels)
    else if isPrefixOfCh "FOREIGN KEY".toList up then
      match findFK trimmed with
      | some (fkCol, refTbl, refCol) =>
        (markFK (lowerChars fkCol) refTbl refCol cols,
         rels ++ [mkRel tableName fkCol refTbl refCol])
      | none => (cols, rels)
    else if isPrefixOfCh "CONSTRAINT".toList up then (cols, rels)
    else
      match matchColDef trimmed with
      | none => (cols, rels)
      | some (cname, ctype) =>
        let isPK := containsSub "PRIMARY KEY".toList up
        let isFK := containsSub "REFERENCES".toList up
        let nullable := !containsSub "NOT NULL".toList up && !containsSub "PRIMARY KEY".toList up
        match findRef trimmed with
        | some (tbl, rcol) =>
          let col : Column :=
            { name := String.mk cname, type := String.mk (lowerChars ctype),
              isPrimaryKey := isPK, isForeignKey := true, isNullable := nullable,
              references := some ⟨String.mk tbl, String.mk rcol⟩ }
          (cols ++ [col], rels ++ [mkRel tableName cname tbl rcol])
        | none =>
          let col : Column :=
            { name := String.mk cname, type := String.mk (lowerChars ctype),
              isPrimaryKey := isPK, isForeignKey := isFK, isNullable := nullable,
              references := none }
          (cols ++ [col], rels)

structure ParseResult where
  tables : List Table
  relationships : List Relationship
  error : Option String
deriving DecidableEq, Repr

/-- Build one table from a matched statement, threading the global
relationship accumulator. -/
def buildTable (acc : List Table × List Relationship)
    (stmt : List Char × List Char) : List Table × List Relationship :=
  let tname := stmt.1
  let clauses := splitColumns stmt.2
  let colsRels := clauses.foldl
    (fun (cr : List Column × List Relationship) clause =>
      processClause tname cr.1 cr.2 clause) ([], acc.2)
  (acc.1 ++ [{ id := String.mk (lowerChars tname), name := String.mk tname,
               columns := colsRels.1 }], colsRels.2)

def parseSQL (sql : String) : ParseResult :=
  let cleaned := cleanSQL sql.toList
  let stmts := scanCreates cleaned
  let res := stmts.foldl buildTable ([], [])
  if res.1.isEmpty then
    { tables := [], relationships := [],
      error := some "No CREATE TABLE statements found" }
  else { tables := res.1, relationships := res.2, error := none }

/-! ## JSON schema extractor (`src/utils/jsonParser.ts`)

`parseJSONSchema` takes raw text, `JSON.parse`s it and walks the decoded
document.  The platform parse step is embedded at the interface granularity:
`malformed` is a text on which `JSON.parse` throws, and `doc none` is a
decoded document whose `tables` key is absent, falsy, or not an array. -/

structure JColumnInput where
  name : String
  type : String
  primaryKey : Option Bool := none
  foreignKey : Option ColRef := none
  nullable : Option Bool := none
deriving DecidableEq, Repr

structure JTableInput where
  name : String
  columns : List JColumnInput
deriving DecidableEq, Repr

inductive JsonInput where
  | malformed
  | doc (tables : Option (List JTableInput))
deriving DecidableEq, Repr

structure JSONParseResult where
  schema : Schema
  error : Option String
deriving DecidableEq, Repr

def buildJSONColumn (tname : String) (cr : List Column × List Relationship)
    (cd : JColumnInput) : List Column × List Relationship :=
  let column : Column :=
    { name := cd.name, type := cd.type,
      isPrimaryKey := cd.primaryKey.getD false,
      isForeignKey := cd.foreignKey.isSome,
      isNullable := cd.nullable != some false,
      references := cd.foreignKey }
  let rels2 := match cd.foreignKey with
    | some fk => cr.2 ++
        [{ id := tname ++ "_" ++ cd.name ++ "_" ++ fk.table ++ "_" ++ fk.column,
           fromTable := tname, fromColumn := cd.name,
           toTable := fk.table, toColumn := fk.column }]
    | none => cr.2
  (cr.1 ++ [column], rels2)

def buildJSONTable (acc : List Table × List Relationship) (td : JTableInput) :
    List Table × List Relationship :=
  let colsRels := td.columns.foldl (buildJSONColumn td.name) ([], acc.2)
  (acc.1 ++ [{ id := String.mk (lowerChars td.name.toList), name := td.name,
               columns := colsRels.1 }], colsRels.2)

def parseJSONSchema : JsonInput → JSONParseResult
  | .malformed =>
    { schema := ⟨[], []⟩, error := some "JSON parse error: Invalid JSON" }
  | .doc none =>
    { schema := ⟨[], []⟩, error := some "Invalid JSON: missing tables array" }
  | .doc (some tabs) =>
    let res := tabs.foldl buildJSONTable ([], [])
    { schema := { tables := res.1, relationships := res.2 }, error := none }

/-! ## Export / import (`src/utils/exportImport.ts`)

`exportDiagram` serializes with `JSON.stringify` and `importDiagram` decodes
with `JSON.parse`; on the acyclic record data involved the parse of the
stringified document is structurally identical to the document, so the
serialized boundary is embedded as the document itself (`ImportedDoc`, with
each top-level key optional, since an arbitrary import file may omit them). -/

structure TablePosition where
  x : ℚ
  y : ℚ
deriving DecidableEq, Repr

structure ViewState where
  zoom : ℚ
  pan : TablePosition
deriving DecidableEq, Repr

structure DiagramState where
  schema : Schema
  positions : List (String × TablePosition)
  zoom : ℚ
  pan : TablePosition
  selectedTableId : Option String
deriving DecidableEq, Repr

structure ExportData where
  version : String
  schema : Schema
  positions : List (String × TablePosition)
  viewState : ViewState
deriving DecidableEq, Repr

def exportDiagram (state : DiagramState) : ExportData :=
  { version := "1.0", schema := state.schema, positions := state.positions,
    viewState := { zoom := state.zoom, pan := state.pan } }

/-- The decoded form of an import file: each top-level key may be missing. -/
structure ImportedDoc where
  version : Option String := none
  schema : Option Schema := none
  positions : Option (List (String × TablePosition)) := none
  viewState : Option ViewState := none
deriving DecidableEq, Repr

inductive ImportInput where
  | malformed
  | doc (d : ImportedDoc)
deriving DecidableEq, Repr

structure ImportResult where
  data : Option ExportData
  error : Option String
deriving DecidableEq, Repr

/-- `JSON.stringify` of an `ExportData` re-parses to the document with all
four keys present. -/
def toDoc (e : ExportData) : ImportedDoc :=
  { version := some e.version, schema := some e.schema,
    positions := some e.positions, viewState := some e.viewState }

def importDiagram : ImportInput → ImportResult
  | .malformed => { data := none, error := some "Import error: Invalid JSON" }
  | .doc d =>
    match d.version, d.schema, d.positions, d.viewState with
    | some v, some s, some p, some vs =>
      if v == "" then { data := none, error := some "Invalid export file format" }
      else
        { data := some { version := v, schema := s, positions := p, viewState := vs },
          error := none }
    | _, _, _, _ => { data := none, error := some "Invalid export file format" }

/-! ## Pathfinding invariants

Machinery shared by the routing claims: well-formedness of search nodes
(their parent chains are genuine grid walks), and the open/closed-set
invariants of the A* loop. -/

def pointPos (q : Point) : Int × Int := (q.x, q.y)

/-- Manhattan distance, as computed by the heuristic. -/
def manh (a b : Int × Int) : Int :=
  ((a.1 - b.1).natAbs : Int) + ((a.2 - b.2).natAbs : Int)

/-- 4-directional grid adjacency at `GRID_SIZE` scale. -/
def adjP (a b : Int × Int) : Prop :=
  b = (a.1 + 20, a.2) ∨ b = (a.1 - 20, a.2) ∨ b = (a.1, a.2 + 20) ∨ b = (a.1, a.2 - 20)

instance : DecidablePred (fun ab : (Int × Int) × (Int × Int) => adjP ab.1 ab.2) :=
  fun ab => inferInstanceAs (Decidable (_ = _ ∨ _ = _ ∨ _ = _ ∨ _ = _))

theorem manh_nonneg (a b : Int × Int) : 0 ≤ manh a b := by
  unfold manh; positivity

theorem manh_triangle (a b c : Int × Int) : manh a c ≤ manh a b + manh b c := by
  unfold manh; omega

theorem manh_adj (a b : Int × Int) (h : adjP a b) : manh a b ≤ 20 := by
  rcases h with h | h | h | h <;> subst h <;> simp only [manh] <;> omega

theorem selectMin_perm (b : Node) (l : List Node) :
    List.Perm ((selectMin b l).1 :: (selectMin b l).2) (b :: l) := by
  induction l generalizing b with
  | nil => simp [selectMin]
  | cons n rest ih =>
    simp only [selectMin]
    split
    · refine List.Perm.trans (List.Perm.swap b (selectMin n rest).1 (selectMin n rest).2) ?_
      exact List.Perm.cons b (ih n)
    · refine List.Perm.trans (List.Perm.swap n (selectMin b rest).1 (selectMin b rest).2) ?_
      exact List.Perm.trans (List.Perm.cons n (ih b)) (List.Perm.swap b n rest)

theorem selectMin_min (b : Node) (l : List Node) :
    ∀ n ∈ b :: l, (selectMin b l).1.f ≤ n.f := by
  induction l generalizing b with
  | nil =>
    intro n hn
    rcases List.mem_singleton.mp hn with rfl
    simp [selectMin]
  | cons m rest ih =>
    intro n hn
    simp only [selectMin]
    split
    · next hlt =>
      simp only
      rcases List.mem_cons.mp hn with rfl | hn2
      · exact le_trans (ih m m (List.mem_cons_self m rest)) (le_of_lt hlt)
      · exact ih m n hn2
    · next hge =>
      simp only
      rcases List.mem_cons.mp hn with rfl | hn2
      · exact ih n n (List.mem_cons_self n rest)
      · rcases List.mem_cons.mp hn2 with rfl | hn3
        · exact le_trans (ih b b (List.mem_cons_self b rest)) (le_of_not_lt hge)
        · exact ih b n (List.mem_cons.mpr (Or.inr hn3))

theorem insertOrRelax_mem (px py g h f : Int) (cur : Node) (l : List Node) :
    ∀ m ∈ insertOrRelax px py g h f cur l,
      m ∈ l ∨ ∃ h0, m = Node.child px py g h0 f cur := by
  induction l with
  | nil =>
    intro m hm
    simp only [insertOrRelax, List.mem_singleton] at hm
    exact Or.inr ⟨h, hm⟩
  | cons n rest ih =>
    intro m hm
    simp only [insertOrRelax] at hm
    split at hm
    · split at hm
      · rcases List.mem_cons.mp hm with rfl | hm2
        · exact Or.inr ⟨n.h, rfl⟩
        · exact Or.inl (List.mem_cons.mpr (Or.inr hm2))
      · exact Or.inl hm
    · rcases List.mem_cons.mp hm with rfl | hm2
      · exact Or.inl (List.mem_cons_self _ _)
      · rcases ih m hm2 with h1 | h2
        · exact Or.inl (List.mem_cons.mpr (Or.inr h1))
        · exact Or.inr h2

theorem insertOrRelax_survive (px py g h f : Int) (cur : Node) (l : List Node) :
    ∀ n ∈ l, ∃ m ∈ insertOrRelax px py g h f cur l,
      m.pos = n.pos ∧ m.g ≤ n.g := by
  induction l with
  | nil => intro n hn; cases hn
  | cons n0 rest ih =>
    intro n hn
    simp only [insertOrRelax]
    split
    · next heq =>
      split
      · next hlt =>
        rcases List.mem_cons.mp hn with rfl | hn2
        · refine ⟨Node.child px py g n.h f cur, List.mem_cons_self _ _, ?_, le_of_lt hlt⟩
          simp [Node.pos_eq, heq.1, heq.2]
        · exact ⟨n, List.mem_cons.mpr (Or.inr hn2), rfl, le_refl _⟩
      · rcases List.mem_cons.mp hn with rfl | hn2
        · exact ⟨n, List.mem_cons_self _ _, rfl, le_refl _⟩
        · exact ⟨n, List.mem_cons.mpr (Or.inr hn2), rfl, le_refl _⟩
    · rcases List.mem_cons.mp hn with rfl | hn2
      · exact ⟨n, List.mem_cons_self _ _, rfl, le_refl _⟩
      · rcases ih n hn2 with ⟨m, hm, hpos, hg⟩
        exact ⟨m, List.mem_cons.mpr (Or.inr hm), hpos, hg⟩

theorem insertOrRelax_target (px py g h f : Int) (cur : Node) (l : List Node) :
    ∃ m ∈ insertOrRelax px py g h f cur l, m.pos = (px, py) ∧ m.g ≤ g := by
  induction l with
  | nil =>
    exact ⟨Node.child px py g h f cur, List.mem_singleton.mpr rfl, rfl, le_refl _⟩
  | cons n rest ih =>
    simp only [insertOrRelax]
    split
    · next heq =>
      split
      · exact ⟨Node.child px py g n.h f cur, List.mem_cons_self _ _, rfl, le_refl _⟩
      · next hge =>
        refine ⟨n, List.mem_cons_self _ _, ?_, le_of_not_lt hge⟩
        simp [Node.pos_eq, heq.1, heq.2]
    · rcases ih with ⟨m, hm, hpos, hg⟩
      exact ⟨m, List.mem_cons.mpr (Or.inr hm), hpos, hg⟩

theorem insertOrRelax_posmap_old (px py g h f : Int) (cur : Node) (l : List Node)
    (hmem : (px, py) ∈ l.map Node.pos) :
    (insertOrRelax px py g h f cur l).map Node.pos = l.map Node.pos := by
  induction l with
  | nil => cases hmem
  | cons n rest ih =>
    simp only [insertOrRelax]
    split
    · next heq =>
      split <;> simp [Node.pos_eq, heq.1, heq.2]
    · next hne =>
      have hmem2 : (px, py) ∈ rest.map Node.pos := by
        rcases (by simpa using hmem :
            (px, py) = n.pos ∨ ∃ a ∈ rest, a.pos = (px, py)) with hcase | ⟨a, ha, hpa⟩
        · exfalso
          apply hne
          rw [Node.pos_eq] at hcase
          exact ⟨(congrArg Prod.fst hcase).symm, (congrArg Prod.snd hcase).symm⟩
        · exact List.mem_map.mpr ⟨a, ha, hpa⟩
      simp only [List.map_cons, ih hmem2]

theorem insertOrRelax_posmap_new (px py g h f : Int) (cur : Node) (l : List Node)
    (hmem : (px, py) ∉ l.map Node.pos) :
    (insertOrRelax px py g h f cur l).map Node.pos = l.map Node.pos ++ [(px, py)] := by
  induction l with
  | nil => simp [insertOrRelax, Node.pos, Node.x, Node.y]
  | cons n rest ih =>
    simp only [insertOrRelax]
    split
    · next heq =>
      exfalso
      apply hmem
      simp only [List.map_cons, List.mem_cons]
      left
      rw [Node.pos_eq, heq.1, heq.2]
    · simp only [List.map_cons]
      rw [ih (fun hc => hmem (by simp only [List.map_cons, List.mem_cons]; exact Or.inr hc))]
      simp

/-- A grid position the search may occupy: not blocked and inside the canvas
(the exact complement of the neighbor rejection tests in `findPath`). -/
def freeP (obstacles : List Rect) (bounds : Bounds) (p : Int × Int) : Prop :=
  isObstacle p.1 p.2 obstacles = false ∧
    ¬(p.1 < 0 ∨ p.2 < 0 ∨ p.1 > bounds.width ∨ p.2 > bounds.height)

/-- Well-formed search node: its parent chain is rooted at the snapped start
`(sx, sy)`, every step is 4-adjacent, every non-root node is free, `g`
accumulates one `GRID_SIZE` per step, and `f = g + h` with the Manhattan
heuristic toward the snapped end `(ex, ey)` (the root has `g = h = f = 0`, as
built by `createNode`). -/
def NodeWF (obstacles : List Rect) (bounds : Bounds) (sx sy ex ey : Int) :
    Node → Prop
  | .root x y g h f => x = sx ∧ y = sy ∧ g = 0 ∧ h = 0 ∧ f = 0
  | .child x y g _ f par =>
      NodeWF obstacles bounds sx sy ex ey par ∧ adjP (par.x, par.y) (x, y) ∧
        freeP obstacles bounds (x, y) ∧ g = par.g + 20 ∧
        f = g + manh (x, y) (ex, ey)

/-- A 4-directional grid walk from the snapped start whose cells are all
free, except possibly at the start position itself (the search never tests
the start node against obstacles or bounds). -/
def RouteOK (obstacles : List Rect) (bounds : Bounds) (sx sy : Int)
    (v : List Point) : Prop :=
  v.head? = some ⟨sx, sy⟩ ∧
    List.Chain' (fun a b => adjP (pointPos a) (pointPos b)) v ∧
    ∀ q ∈ v, (q.x = sx ∧ q.y = sy) ∨ freeP obstacles bounds (q.x, q.y)

theorem reconstructPath_ne_nil (n : Node) : reconstructPath n ≠ [] := by
  cases n <;> simp [reconstructPath]

theorem reconstructPath_getLast (n : Node) :
    (reconstructPath n).getLast? = some ⟨n.x, n.y⟩ := by
  cases n with
  | root x y g h f => simp [reconstructPath]
  | child x y g h f p => simp [reconstructPath, List.getLast?_concat]

theorem reconstructPath_head (obstacles : List Rect) (bounds : Bounds)
    (sx sy ex ey : Int) (n : Node) (hwf : NodeWF obstacles bounds sx sy ex ey n) :
    (reconstructPath n).head? = some ⟨sx, sy⟩ := by
  induction n with
  | root x y g h f =>
    rcases hwf with ⟨rfl, rfl, -⟩
    simp [reconstructPath]
  | child x y g h f p ih =>
    rw [reconstructPath, List.head?_append_of_ne_nil _ (reconstructPath_ne_nil p)]
    exact ih hwf.1

theorem reconstructPath_chain (obstacles : List Rect) (bounds : Bounds)
    (sx sy ex ey : Int) (n : Node) (hwf : NodeWF obstacles bounds sx sy ex ey n) :
    List.Chain' (fun a b => adjP (pointPos a) (pointPos b)) (reconstructPath n) := by
  induction n with
  | root x y g h f => simp [reconstructPath]
  | child x y g h f p ih =>
    rw [reconstructPath, List.chain'_append]
    refine ⟨ih hwf.1, by simp, ?_⟩
    intro a ha b hb
    rw [reconstructPath_getLast p] at ha
    rcases Option.mem_some_iff.mp ha with rfl
    rcases Option.mem_some_iff.mp (by simpa using hb) with rfl
    exact hwf.2.1

theorem reconstructPath_free (obstacles : List Rect) (bounds : Bounds)
    (sx sy ex ey : Int) (n : Node) (hwf : NodeWF obstacles bounds sx sy ex ey n) :
    ∀ q ∈ reconstructPath n,
      (q.x = sx ∧ q.y = sy) ∨ freeP obstacles bounds (q.x, q.y) := by
  induction n with
  | root x y g h f =>
    intro q hq
    rcases hwf with ⟨rfl, rfl, -⟩
    rcases List.mem_singleton.mp (by simpa [reconstructPath] using hq) with rfl
    exact Or.inl ⟨rfl, rfl⟩
  | child x y g h f p ih =>
    intro q hq
    rcases (by simpa [reconstructPath] using hq :
        q ∈ reconstructPath p ∨ q = Point.mk x y) with hq1 | rfl
    · exact ih hwf.1 q hq1
    · exact Or.inr hwf.2.2.1

theorem reconstructPath_routeOK (obstacles : List Rect) (bounds : Bounds)
    (sx sy ex ey : Int) (n : Node) (hwf : NodeWF obstacles bounds sx sy ex ey n) :
    RouteOK obstacles bounds sx sy (reconstructPath n) :=
  ⟨reconstructPath_head obstacles bounds sx sy ex ey n hwf,
   reconstructPath_chain obstacles bounds sx sy ex ey n hwf,
   reconstructPath_free obstacles bounds sx sy ex ey n hwf⟩

theorem reconstructPath_g (obstacles : List Rect) (bounds : Bounds)
    (sx sy ex ey : Int) (n : Node) (hwf : NodeWF obstacles bounds sx sy ex ey n) :
    n.g + 20 = 20 * ((reconstructPath n).length : Int) := by
  induction n with
  | root x y g h f =>
    rcases hwf with ⟨-, -, rfl, -⟩
    simp [reconstructPath]
  | child x y g h f p ih =>
    have h1 := ih hwf.1
    have h2 : g = p.g + 20 := hwf.2.2.2.1
    simp only [reconstructPath, List.length_append, List.length_singleton,
      Node.g_child]
    push_cast
    push_cast at h1
    omega

theorem NodeWF_g_nonneg (obstacles : List Rect) (bounds : Bounds)
    (sx sy ex ey : Int) (n : Node) (hwf : NodeWF obstacles bounds sx sy ex ey n) :
    0 ≤ n.g := by
  induction n with
  | root x y g h f => rcases hwf with ⟨-, -, rfl, -⟩; simp
  | child x y g h f p ih =>
    have := ih hwf.1
    have h2 : g = p.g + 20 := hwf.2.2.2.1
    simp only [Node.g_child]
    omega

theorem NodeWF_f_eq (obstacles : List Rect) (bounds : Bounds)
    (sx sy ex ey : Int) (n : Node) (hwf : NodeWF obstacles bounds sx sy ex ey n) :
    n.f = n.g + manh (n.x, n.y) (ex, ey) ∨ (n.f = n.g ∧ n.g = 0) := by
  cases n with
  | root x y g h f =>
    rcases hwf with ⟨-, -, h3, -, h5⟩
    exact Or.inr (by simp [h3, h5])
  | child x y g h f p => exact Or.inl hwf.2.2.2.2

theorem NodeWF_lattice (obstacles : List Rect) (bounds : Bounds)
    (sx sy ex ey : Int) (n : Node) (hwf : NodeWF obstacles bounds sx sy ex ey n) :
    (20 : Int) ∣ (n.x - sx) ∧ (20 : Int) ∣ (n.y - sy) := by
  induction n with
  | root x y g h f => rcases hwf with ⟨rfl, rfl, -⟩; simp
  | child x y g h f p ih =>
    have h1 := ih hwf.1
    have h2 := hwf.2.1
    simp only [Node.x_child, Node.y_child]
    rcases h2 with h | h | h | h <;>
      rcases Prod.mk.injEq .. ▸ h with ⟨rfl, rfl⟩ <;>
      constructor <;> omega

theorem processNeighbor_eq_or (obstacles : List Rect) (bounds : Bounds)
    (ex ey : Int) (cur : Node) (closed : List (Int × Int)) (o : List Node)
    (p : Int × Int) :
    processNeighbor obstacles bounds ex ey cur closed o p = o ∨
      (p ∉ closed ∧ freeP obstacles bounds p ∧
        processNeighbor obstacles bounds ex ey cur closed o p =
          insertOrRelax p.1 p.2 (cur.g + 20) (manh p (ex, ey))
            (cur.g + 20 + manh p (ex, ey)) cur o) := by
  unfold processNeighbor
  split_ifs with h1 h2 h3
  · exact Or.inl rfl
  · exact Or.inl rfl
  · exact Or.inl rfl
  · exact Or.inr ⟨h1, ⟨by simpa using h2, h3⟩, rfl⟩

theorem processNeighbor_free_eq (obstacles : List Rect) (bounds : Bounds)
    (ex ey : Int) (cur : Node) (closed : List (Int × Int)) (o : List Node)
    (p : Int × Int) (hnc : p ∉ closed) (hfree : freeP obstacles bounds p) :
    processNeighbor obstacles bounds ex ey cur closed o p =
      insertOrRelax p.1 p.2 (cur.g + 20) (manh p (ex, ey))
        (cur.g + 20 + manh p (ex, ey)) cur o := by
  unfold processNeighbor
  rw [if_neg hnc, if_neg (by simp [hfree.1]), if_neg hfree.2]
  rfl

/-- Shape of any node added by neighbor expansion. -/
def NewChild (obstacles : List Rect) (bounds : Bounds) (ex ey : Int)
    (cur : Node) (closed : List (Int × Int)) (ps : List (Int × Int))
    (m : Node) : Prop :=
  ∃ q h0, q ∈ ps ∧ q ∉ closed ∧ freeP obstacles bounds q ∧
    m = Node.child q.1 q.2 (cur.g + 20) h0 (cur.g + 20 + manh q (ex, ey)) cur

theorem foldPN_mem (obstacles : List Rect) (bounds : Bounds) (ex ey : Int)
    (cur : Node) (closed : List (Int × Int)) (ps : List (Int × Int))
    (o : List Node) :
    ∀ m ∈ ps.foldl (processNeighbor obstacles bounds ex ey cur closed) o,
      m ∈ o ∨ NewChild obstacles bounds ex ey cur closed ps m := by
  induction ps generalizing o with
  | nil => intro m hm; exact Or.inl hm
  | cons p ps ih =>
    intro m hm
    simp only [List.foldl_cons] at hm
    rcases ih _ m hm with hmo | ⟨q, h0, hq, hnc, hfree, hshape⟩
    · rcases processNeighbor_eq_or obstacles bounds ex ey cur closed o p with
        heq | ⟨hnc, hfree, heq⟩
      · rw [heq] at hmo; exact Or.inl hmo
      · rw [heq] at hmo
        rcases insertOrRelax_mem _ _ _ _ _ _ _ m hmo with h1 | ⟨h0, rfl⟩
        · exact Or.inl h1
        · exact Or.inr ⟨p, h0, List.mem_cons_self p ps, hnc, hfree, by simp⟩
    · exact Or.inr ⟨q, h0, List.mem_cons.mpr (Or.inr hq), hnc, hfree, hshape⟩

theorem foldPN_survive (obstacles : List Rect) (bounds : Bounds) (ex ey : Int)
    (cur : Node) (closed : List (Int × Int)) (ps : List (Int × Int))
    (o : List Node) :
    ∀ n ∈ o, ∃ m ∈ ps.foldl (processNeighbor obstacles bounds ex ey cur closed) o,
      m.pos = n.pos ∧ m.g ≤ n.g := by
  induction ps generalizing o with
  | nil => intro n hn; exact ⟨n, hn, rfl, le_refl _⟩
  | cons p ps ih =>
    intro n hn
    simp only [List.foldl_cons]
    rcases processNeighbor_eq_or obstacles bounds ex ey cur closed o p with
      heq | ⟨hnc, hfree, heq⟩
    · rw [heq]; exact ih o n hn
    · rw [heq]
      rcases insertOrRelax_survive _ _ _ _ _ _ _ n hn with ⟨m1, hm1, hpos1, hg1⟩
      rcases ih _ m1 hm1 with ⟨m2, hm2, hpos2, hg2⟩
      exact ⟨m2, hm2, hpos2.trans hpos1, hg2.trans hg1⟩

theorem foldPN_cover (obstacles : List Rect) (bounds : Bounds) (ex ey : Int)
    (cur : Node) (closed : List (Int × Int)) (ps : List (Int × Int)) :
    ∀ (o : List Node) (q : Int × Int), q ∈ ps → q ∉ closed →
      freeP obstacles bounds q →
      ∃ m ∈ ps.foldl (processNeighbor obstacles bounds ex ey cur closed) o,
        m.pos = q ∧ m.g ≤ cur.g + 20 := by
  induction ps with
  | nil => intro o q hq; cases hq
  | cons p ps ih =>
    intro o q hq hnc hfree
    simp only [List.foldl_cons]
    rcases List.mem_cons.mp hq with rfl | hq2
    · rw [processNeighbor_free_eq obstacles bounds ex ey cur closed o q hnc hfree]
      rcases insertOrRelax_target q.1 q.2 (cur.g + 20) (manh q (ex, ey))
        (cur.g + 20 + manh q (ex, ey)) cur o with ⟨m1, hm1, hpos1, hg1⟩
      rcases foldPN_survive obstacles bounds ex ey cur closed ps _ m1 hm1 with
        ⟨m2, hm2, hpos2, hg2⟩
      exact ⟨m2, hm2, by rw [hpos2, hpos1], hg2.trans hg1⟩
    · exact ih _ q hq2 hnc hfree

theorem foldPN_nodup (obstacles : List Rect) (bounds : Bounds) (ex ey : Int)
    (cur : Node) (closed : List (Int × Int)) (ps : List (Int × Int))
    (o : List Node) (hnd : (o.map Node.pos).Nodup) :
    ((ps.foldl (processNeighbor obstacles bounds ex ey cur closed) o).map
      Node.pos).Nodup := by
  induction ps generalizing o with
  | nil => exact hnd
  | cons p ps ih =>
    simp only [List.foldl_cons]
    refine ih _ ?_
    rcases processNeighbor_eq_or obstacles bounds ex ey cur closed o p with
      heq | ⟨hnc, hfree, heq⟩
    · rw [heq]; exact hnd
    · rw [heq]
      by_cases hmem : (p.1, p.2) ∈ o.map Node.pos
      · rw [insertOrRelax_posmap_old _ _ _ _ _ _ _ hmem]; exact hnd
      · rw [insertOrRelax_posmap_new _ _ _ _ _ _ _ hmem]
        refine List.Nodup.append hnd (List.nodup_singleton _) ?_
        intro a ha hb
        rcases List.mem_singleton.mp hb with rfl
        exact hmem ha

@[simp] theorem pointPos_mk (a b : Int) : pointPos ⟨a, b⟩ = (a, b) := rfl

theorem chain'_middle {α : Type} {R : α → α → Prop} :
    ∀ (u : List α) (a b : α) (r : List α), List.Chain' R (u ++ a :: b :: r) → R a b := by
  intro u
  induction u with
  | nil => intro a b r hc; exact (List.chain'_cons.mp hc).1
  | cons u0 u' ih => intro a b r hc; exact ih a b r (List.Chain'.tail hc)

/-- Along a 4-adjacent chain, Manhattan distance from first to last is at
most `20` per step. -/
theorem chain_manh :
    ∀ (w : List Point), List.Chain' (fun a b => adjP (pointPos a) (pointPos b)) w →
      ∀ a b, w.head? = some a → w.getLast? = some b →
        manh (pointPos a) (pointPos b) ≤ 20 * ((w.length : Int) - 1) := by
  intro w
  induction w with
  | nil => intro _ a b h; cases h
  | cons c0 w' ih =>
    intro hc a b hhead hlast
    rcases Option.some_inj.mp hhead with rfl
    cases w' with
    | nil =>
      rcases Option.some_inj.mp (by simpa using hlast) with rfl
      simp [manh]
    | cons c1 rest =>
      have hadj : adjP (pointPos c0) (pointPos c1) := (List.chain'_cons.mp hc).1
      have hc' : List.Chain' (fun a b => adjP (pointPos a) (pointPos b)) (c1 :: rest) :=
        (List.chain'_cons.mp hc).2
      have hlast' : (c1 :: rest).getLast? = some b := by
        rw [← hlast]; symm; exact List.getLast?_append_cons [c0] c1 rest
      have h1 := ih hc' c1 b rfl hlast'
      have h2 := manh_adj (pointPos c0) (pointPos c1) hadj
      have h3 := manh_triangle (pointPos c0) (pointPos c1) (pointPos b)
      have hlen : ((c1 :: rest).length : Int) ≥ 1 := by
        simp only [List.length_cons]; push_cast; omega
      simp only [List.length_cons] at h1 ⊢
      push_cast at h1 ⊢
      omega

theorem route_prefix (obstacles : List Rect) (bounds : Bounds) (sx sy : Int)
    (l1 l2 : List Point) (h : RouteOK obstacles bounds sx sy (l1 ++ l2))
    (hne : l1 ≠ []) : RouteOK obstacles bounds sx sy l1 := by
  refine ⟨?_, (List.chain'_append.mp h.2.1).1, ?_⟩
  · rw [← h.1]; symm; exact List.head?_append_of_ne_nil l1 hne
  · intro q hq; exact h.2.2 q (List.mem_append.mpr (Or.inl hq))

/-- Loop invariant of the A* search.  `openL`/`closed` are the open list and
the closed set; `(sx, sy)` and `(ex, ey)` are the snapped start and end. -/
structure SInv (obstacles : List Rect) (bounds : Bounds) (sx sy ex ey : Int)
    (openL : List Node) (closed : List (Int × Int)) : Prop where
  wf : ∀ n ∈ openL, NodeWF obstacles bounds sx sy ex ey n
  nodupPos : (openL.map Node.pos).Nodup
  openNotClosed : ∀ n ∈ openL, n.pos ∉ closed
  startState : (sx, sy) ∈ closed ∨ ∃ n ∈ openL, n.pos = (sx, sy) ∧ n.g = 0
  endOpen : (ex, ey) ∉ closed
  inv5 : ∀ v t, RouteOK obstacles bounds sx sy v → v.getLast? = some t →
    (t.x, t.y) ∉ closed →
    ∃ v1 v2, v = v1 ++ v2 ∧ ∃ n ∈ openL, v2.head? = some ⟨n.x, n.y⟩ ∧
      n.g ≤ 20 * (v1.length : Int)
  invE : ∀ p q, p ∈ closed → adjP p q → freeP obstacles bounds q → q ∉ closed →
    ∃ n ∈ openL, n.pos = q ∧ ∀ w t, RouteOK obstacles bounds sx sy w →
      w.getLast? = some t → (t.x, t.y) = p → n.g ≤ 20 * (w.length : Int)

/-- The selected lowest-`f` node carries an optimal accumulated cost: no
grid walk reaches its position in fewer steps (the heart of A* correctness
with the consistent Manhattan heuristic). -/
theorem curOpt (obstacles : List Rect) (bounds : Bounds) (sx sy ex ey : Int)
    (n0 : Node) (ns : List Node) (closed : List (Int × Int))
    (hInv : SInv obstacles bounds sx sy ex ey (n0 :: ns) closed) :
    ∀ w t, RouteOK obstacles bounds sx sy w → w.getLast? = some t →
      (t.x, t.y) = (selectMin n0 ns).1.pos →
      (selectMin n0 ns).1.g ≤ 20 * ((w.length : Int) - 1) := by
  intro w t hroute hlast hpos
  set cur := (selectMin n0 ns).1 with hcurdef
  have hcurmem : cur ∈ n0 :: ns :=
    (selectMin_perm n0 ns).mem_iff.mp (List.mem_cons_self _ _)
  have hcurwf := hInv.wf cur hcurmem
  have hcurg := NodeWF_g_nonneg obstacles bounds sx sy ex ey cur hcurwf
  have htnc : (t.x, t.y) ∉ closed := by
    rw [hpos]; exact hInv.openNotClosed cur hcurmem
  rcases hInv.inv5 w t hroute hlast htnc with ⟨w1, w2, rfl, n, hn, hhead2, hgn⟩
  have hfmin : cur.f ≤ n.f := selectMin_min n0 ns n hn
  have hnwf := hInv.wf n hn
  have hw2ne : w2 ≠ [] := by
    intro hc; rw [hc] at hhead2; cases hhead2
  have hlast2 : w2.getLast? = some t := by
    rw [← hlast]; symm; exact List.getLast?_append_of_ne_nil w1 hw2ne
  have hchain2 : List.Chain' (fun a b => adjP (pointPos a) (pointPos b)) w2 :=
    (List.chain'_append.mp hroute.2.1).2.1
  have hmanh2 := chain_manh w2 hchain2 ⟨n.x, n.y⟩ t hhead2 hlast2
  have htri := manh_triangle (n.x, n.y) (cur.x, cur.y) (ex, ey)
  have hmanhpos : pointPos t = (cur.x, cur.y) := by
    rw [Node.pos_eq] at hpos
    simpa [pointPos] using hpos
  rw [hmanhpos] at hmanh2
  simp only [pointPos_mk] at hmanh2
  have hlen2 : (1 : Int) ≤ (w2.length : Int) := by
    cases w2 with
    | nil => exact absurd rfl hw2ne
    | cons c r => simp only [List.length_cons]; push_cast; omega
  have hlen : ((w1 ++ w2).length : Int) = (w1.length : Int) + (w2.length : Int) := by
    simp [List.length_append]
  rcases NodeWF_f_eq obstacles bounds sx sy ex ey cur hcurwf with hcf | ⟨hcf, hcg0⟩
  · rcases NodeWF_f_eq obstacles bounds sx sy ex ey n hnwf with hnf | ⟨hnf, hng0⟩
    · omega
    · have h1 := manh_nonneg (cur.x, cur.y) (ex, ey)
      omega
  · omega

theorem point_mk_eq (m : Node) (c : Point) (h : m.pos = pointPos c) :
    (⟨m.x, m.y⟩ : Point) = c := by
  cases c with
  | mk cx cy =>
    rw [Node.pos_eq, pointPos_mk, Prod.mk.injEq] at h
    simp [h.1, h.2]

/-- Walking a route forward from a closed cell, the first not-yet-closed cell
on it carries an open witness whose accumulated cost is within the length of
the walked prefix — the inductive step that keeps the frontier invariant
through one expansion (`closed` is the pre-step closed set, `cur` the node
being expanded, `out` the post-expansion open list). -/
theorem step5 (obstacles : List Rect) (bounds : Bounds) (sx sy ex ey : Int)
    (cur : Node) (closed : List (Int × Int)) (out : List Node)
    (hcov : ∀ q, adjP cur.pos q → q ∉ cur.pos :: closed →
      freeP obstacles bounds q → ∃ m ∈ out, m.pos = q ∧ m.g ≤ cur.g + 20)
    (hstart : (sx, sy) ∈ cur.pos :: closed ∨
      ∃ m ∈ out, m.pos = (sx, sy) ∧ m.g = 0)
    (hinvEout : ∀ p q, p ∈ closed → p ≠ cur.pos → adjP p q →
      freeP obstacles bounds q → q ∉ cur.pos :: closed →
      ∃ m ∈ out, m.pos = q ∧ ∀ w t, RouteOK obstacles bounds sx sy w →
        w.getLast? = some t → (t.x, t.y) = p → m.g ≤ 20 * (w.length : Int))
    (hcurOpt : ∀ w t, RouteOK obstacles bounds sx sy w → w.getLast? = some t →
      (t.x, t.y) = cur.pos → cur.g ≤ 20 * ((w.length : Int) - 1)) :
    ∀ (w2 u : List Point) (c0 : Point), w2.head? = some c0 →
      pointPos c0 ∈ cur.pos :: closed →
      RouteOK obstacles bounds sx sy (u ++ w2) →
      (∀ t, (u ++ w2).getLast? = some t → pointPos t ∉ cur.pos :: closed) →
      ∃ v1 v2, u ++ w2 = v1 ++ v2 ∧ ∃ m ∈ out, v2.head? = some ⟨m.x, m.y⟩ ∧
        m.g ≤ 20 * (v1.length : Int) := by
  intro w2
  induction w2 with
  | nil => intro u c0 hh; cases hh
  | cons c0' rest ih =>
    intro u c0 hh hc0 hroute hlast
    rcases Option.some_inj.mp hh with rfl
    cases rest with
    | nil =>
      exact absurd hc0 (hlast c0' (by rw [List.getLast?_concat]))
    | cons c1 rest' =>
      have hassoc : u ++ c0' :: c1 :: rest' = (u ++ [c0']) ++ c1 :: rest' := by
        rw [List.append_assoc]; rfl
      have hulen : ((u ++ [c0']).length : Int) = (u.length : Int) + 1 := by
        simp [List.length_append]
      have hpfx : RouteOK obstacles bounds sx sy (u ++ [c0']) := by
        refine route_prefix obstacles bounds sx sy (u ++ [c0']) (c1 :: rest') ?_ (by simp)
        rw [← hassoc]; exact hroute
      have hpfxlast : (u ++ [c0']).getLast? = some c0' := List.getLast?_concat _
      by_cases h1 : pointPos c1 ∈ cur.pos :: closed
      · rcases ih (u ++ [c0']) c1 rfl h1 (by rw [← hassoc]; exact hroute)
          (by rw [← hassoc]; exact hlast) with ⟨v1, v2, heq, m, hm, hhead, hg⟩
        exact ⟨v1, v2, hassoc.trans heq, m, hm, hhead, hg⟩
      · have hadj : adjP (pointPos c0') (pointPos c1) :=
          chain'_middle u c0' c1 rest' hroute.2.1
        have hmem_c1 : c1 ∈ u ++ c0' :: c1 :: rest' := by simp
        rcases hroute.2.2 c1 hmem_c1 with hstart1 | hfree1
        · have hpp : pointPos c1 = (sx, sy) := by
            simp [pointPos, hstart1.1, hstart1.2]
          rcases hstart with hin | ⟨m, hm, hmpos, hmg⟩
          · exact absurd (hpp ▸ hin) h1
          · refine ⟨u ++ [c0'], c1 :: rest', hassoc, m, hm, ?_, ?_⟩
            · simp only [List.head?_cons, Option.some_inj]
              exact (point_mk_eq m c1 (by rw [hmpos, hpp])).symm
            · rw [hmg, hulen]
              have : (0 : Int) ≤ (u.length : Int) := by positivity
              omega
        · by_cases h0 : pointPos c0' = cur.pos
          · rcases hcov (pointPos c1) (h0 ▸ hadj) h1 (by simpa [pointPos] using hfree1)
              with ⟨m, hm, hmpos, hmg⟩
            have hbound := hcurOpt (u ++ [c0']) c0' hpfx hpfxlast h0
            refine ⟨u ++ [c0'], c1 :: rest', hassoc, m, hm, ?_, ?_⟩
            · simp only [List.head?_cons, Option.some_inj]
              exact (point_mk_eq m c1 hmpos).symm
            · rw [hulen] at hbound ⊢
              omega
          · have hc0closed : pointPos c0' ∈ closed := by
              rcases List.mem_cons.mp hc0 with h | h
              · exact absurd h h0
              · exact h
            rcases hinvEout (pointPos c0') (pointPos c1) hc0closed h0 hadj
              (by simpa [pointPos] using hfree1) h1 with ⟨m, hm, hmpos, hmbound⟩
            have hg := hmbound (u ++ [c0']) c0' hpfx hpfxlast rfl
            refine ⟨u ++ [c0'], c1 :: rest', hassoc, m, hm, ?_, ?_⟩
            · simp only [List.head?_cons, Option.some_inj]
              exact (point_mk_eq m c1 hmpos).symm
            · rw [hulen] at hg ⊢
              exact hg

theorem mem_neighborsOf (c : Node) (q : Int × Int) :
    q ∈ neighborsOf c ↔ adjP c.pos q := by
  simp [neighborsOf, adjP, GRID_SIZE, Node.pos_eq]

theorem node_point_eq (m n : Node) (h : m.pos = n.pos) :
    (⟨m.x, m.y⟩ : Point) = ⟨n.x, n.y⟩ := by
  rw [Node.pos_eq, Node.pos_eq, Prod.mk.injEq] at h
  rw [h.1, h.2]

/-- One iteration of the A* loop preserves the invariant: the lowest-`f` node
is moved to the closed set and its neighbors are expanded. -/
theorem SInv_step (obstacles : List Rect) (bounds : Bounds) (sx sy ex ey : Int)
    (n0 : Node) (ns : List Node) (closed : List (Int × Int))
    (hInv : SInv obstacles bounds sx sy ex ey (n0 :: ns) closed)
    (hGoal : ¬(((selectMin n0 ns).1.x - ex).natAbs < 20 ∧
      ((selectMin n0 ns).1.y - ey).natAbs < 20)) :
    SInv obstacles bounds sx sy ex ey
      (expandNode obstacles bounds ex ey (selectMin n0 ns).1
        (((selectMin n0 ns).1.x, (selectMin n0 ns).1.y) :: closed)
        (selectMin n0 ns).2)
      (((selectMin n0 ns).1.x, (selectMin n0 ns).1.y) :: closed) := by
  have hperm := selectMin_perm n0 ns
  set cur := (selectMin n0 ns).1 with hcurdef
  set rest := (selectMin n0 ns).2 with hrestdef
  set closed2 : List (Int × Int) := (cur.x, cur.y) :: closed with hc2def
  have hposc2 : cur.pos ∈ closed2 := List.mem_cons_self _ _
  have hcurmem : cur ∈ n0 :: ns := hperm.mem_iff.mp (List.mem_cons_self _ _)
  have hrestmem : ∀ m ∈ rest, m ∈ n0 :: ns := fun m hm =>
    hperm.mem_iff.mp (List.mem_cons.mpr (Or.inr hm))
  have hndCR : ((cur :: rest).map Node.pos).Nodup :=
    ((hperm.map Node.pos).nodup_iff).mpr hInv.nodupPos
  have hndCR2 : (cur.pos :: rest.map Node.pos).Nodup := by
    rw [← List.map_cons]; exact hndCR
  have hcurnotrest : cur.pos ∉ rest.map Node.pos := (List.nodup_cons.mp hndCR2).1
  have hndRest : (rest.map Node.pos).Nodup := (List.nodup_cons.mp hndCR2).2
  have hwfcur := hInv.wf cur hcurmem
  have hcurnotclosed : cur.pos ∉ closed := hInv.openNotClosed cur hcurmem
  set out := expandNode obstacles bounds ex ey cur closed2 rest with houtdef
  -- membership description of the new open list
  have hmem_out : ∀ m ∈ out, m ∈ rest ∨
      NewChild obstacles bounds ex ey cur closed2 (neighborsOf cur) m :=
    foldPN_mem obstacles bounds ex ey cur closed2 (neighborsOf cur) rest
  have hsurv : ∀ n ∈ rest, ∃ m ∈ out, m.pos = n.pos ∧ m.g ≤ n.g :=
    foldPN_survive obstacles bounds ex ey cur closed2 (neighborsOf cur) rest
  have hcov : ∀ q, adjP cur.pos q → q ∉ closed2 → freeP obstacles bounds q →
      ∃ m ∈ out, m.pos = q ∧ m.g ≤ cur.g + 20 := by
    intro q hadj hnc hfree
    exact foldPN_cover obstacles bounds ex ey cur closed2 (neighborsOf cur) rest q
      ((mem_neighborsOf cur q).mpr hadj) hnc hfree
  -- well-formedness of every node in the new open list
  have hwfout : ∀ m ∈ out, NodeWF obstacles bounds sx sy ex ey m := by
    intro m hm
    rcases hmem_out m hm with hmr | ⟨q, h0, hqnb, hqnc, hqfree, rfl⟩
    · exact hInv.wf m (hrestmem m hmr)
    · refine ⟨hwfcur, ?_, hqfree, rfl, rfl⟩
      exact (mem_neighborsOf cur q).mp hqnb
  -- old frontier-edge invariant, transferred through survival
  have hinvEout : ∀ p q, p ∈ closed → p ≠ cur.pos → adjP p q →
      freeP obstacles bounds q → q ∉ closed2 →
      ∃ m ∈ out, m.pos = q ∧ ∀ w t, RouteOK obstacles bounds sx sy w →
        w.getLast? = some t → (t.x, t.y) = p → m.g ≤ 20 * (w.length : Int) := by
    intro p q hp hpne hadj hfree hqnc2
    have hqnc : q ∉ closed := fun hc => hqnc2 (List.mem_cons.mpr (Or.inr hc))
    rcases hInv.invE p q hp hadj hfree hqnc with ⟨n, hn, hnpos, hnbound⟩
    have hncr : n ∈ cur :: rest := hperm.mem_iff.mpr hn
    have hnrest : n ∈ rest := by
      rcases List.mem_cons.mp hncr with rfl | h
      · exfalso
        apply hqnc2
        rw [← hnpos]
        exact hposc2
      · exact h
    rcases hsurv n hnrest with ⟨m, hm, hmpos, hmg⟩
    refine ⟨m, hm, hmpos.trans hnpos, ?_⟩
    intro w t hw hwl hwt
    exact le_trans hmg (hnbound w t hw hwl hwt)
  -- start coverage in the new state
  have hstart2 : (sx, sy) ∈ closed2 ∨ ∃ m ∈ out, m.pos = (sx, sy) ∧ m.g = 0 := by
    rcases hInv.startState with hin | ⟨n, hn, hnpos, hng⟩
    · exact Or.inl (List.mem_cons.mpr (Or.inr hin))
    · have hncr : n ∈ cur :: rest := hperm.mem_iff.mpr hn
      rcases List.mem_cons.mp hncr with rfl | hnrest
      · exact Or.inl (by rw [← hnpos]; exact hposc2)
      · rcases hsurv n hnrest with ⟨m, hm, hmpos, hmg⟩
        refine Or.inr ⟨m, hm, hmpos.trans hnpos, ?_⟩
        have h0 := NodeWF_g_nonneg obstacles bounds sx sy ex ey m (hwfout m hm)
        omega
  have hcuropt := curOpt obstacles bounds sx sy ex ey n0 ns closed hInv
  simp only [← hcurdef] at hcuropt
  refine ⟨hwfout, ?_, ?_, hstart2, ?_, ?_, ?_⟩
  · -- nodup positions
    exact foldPN_nodup obstacles bounds ex ey cur closed2 (neighborsOf cur) rest hndRest
  · -- open positions not closed
    intro m hm
    rcases hmem_out m hm with hmr | ⟨q, h0, hqnb, hqnc, hqfree, rfl⟩
    · intro hc
      rcases List.mem_cons.mp hc with heq | hc2
      · apply hcurnotrest
        rw [Node.pos_eq, ← heq]
        exact List.mem_map_of_mem Node.pos hmr
      · exact hInv.openNotClosed m (hrestmem m hmr) hc2
    · simpa using hqnc
  · -- the end cell is never closed
    intro hc
    rcases List.mem_cons.mp hc with heq | hc2
    · apply hGoal
      have h1 : cur.x = ex ∧ cur.y = ey := by
        have := Prod.mk.injEq .. ▸ heq.symm
        exact ⟨this.1, this.2⟩
      rw [h1.1, h1.2]
      simp
    · exact hInv.endOpen hc2
  · -- frontier invariant
    intro v t hroute hlast htnc2
    have htnc : (t.x, t.y) ∉ closed := fun hc => htnc2 (List.mem_cons.mpr (Or.inr hc))
    rcases hInv.inv5 v t hroute hlast htnc with ⟨v1, v2, rfl, n, hn, hhead2, hgn⟩
    have hncr : n ∈ cur :: rest := hperm.mem_iff.mpr hn
    rcases List.mem_cons.mp hncr with rfl | hnrest
    · -- the witness was the expanded node: walk forward along the route
      refine step5 obstacles bounds sx sy ex ey cur closed out hcov hstart2 hinvEout
        (fun w t' hw hwl hwt => hcuropt w t' hw hwl hwt) v2 v1 ⟨cur.x, cur.y⟩ hhead2
        ?_ hroute ?_
      · exact List.mem_cons_self _ _
      · intro t' hlast'
        rw [hlast] at hlast'
        rcases Option.some_inj.mp hlast' with rfl
        exact htnc2
    · rcases hsurv n hnrest with ⟨m, hm, hmpos, hmg⟩
      refine ⟨v1, v2, rfl, m, hm, ?_, le_trans hmg hgn⟩
      rw [hhead2, Option.some_inj]
      exact (node_point_eq m n hmpos).symm
  · -- frontier-edge invariant
    intro p q hp hadj hfree hqnc2
    rcases List.mem_cons.mp hp with rfl | hpclosed
    · rcases hcov q hadj hqnc2 hfree with ⟨m, hm, hmpos, hmg⟩
      refine ⟨m, hm, hmpos, ?_⟩
      intro w t hw hwl hwt
      have hb := hcuropt w t hw hwl (by rw [hwt]; rfl)
      omega
    · have hpne : p ≠ cur.pos := fun hc => hcurnotclosed (hc ▸ hpclosed)
      exact hinvEout p q hpclosed hpne hadj hfree hqnc2

theorem SInv_init (obstacles : List Rect) (bounds : Bounds) (sx sy ex ey : Int) :
    SInv obstacles bounds sx sy ex ey [Node.root sx sy 0 0 0] [] := by
  refine ⟨?_, ?_, ?_, ?_, ?_, ?_, ?_⟩
  · intro n hn
    rcases List.mem_singleton.mp hn with rfl
    exact ⟨rfl, rfl, rfl, rfl, rfl⟩
  · simp
  · intro n hn
    simp
  · exact Or.inr ⟨Node.root sx sy 0 0 0, List.mem_singleton.mpr rfl, rfl, rfl⟩
  · simp
  · intro v t hroute hlast htnc
    refine ⟨[], v, rfl, Node.root sx sy 0 0 0, List.mem_singleton.mpr rfl, ?_, ?_⟩
    · simpa using hroute.1
    · simp
  · intro p q hp
    cases hp

theorem pointPos_def (q : Point) : pointPos q = (q.x, q.y) := rfl

/-- A 4-adjacent step moves by a multiple of the grid size on each axis. -/
theorem adjP_dvd (a b : Int × Int) (h : adjP a b) :
    (20 : Int) ∣ (b.1 - a.1) ∧ (20 : Int) ∣ (b.2 - a.2) := by
  rcases h with h | h | h | h <;> subst h <;> constructor <;> simp

/-- Every cell of a 4-adjacent chain is congruent to the head modulo the
grid size, on both axes. -/
theorem chain_lattice :
    ∀ (v : List Point) (a : Point), v.head? = some a →
      List.Chain' (fun a b => adjP (pointPos a) (pointPos b)) v →
      ∀ q ∈ v, (20 : Int) ∣ (q.x - a.x) ∧ (20 : Int) ∣ (q.y - a.y) := by
  intro v
  induction v with
  | nil => intro a ha; cases ha
  | cons c0 rest ih =>
    intro a ha hc q hq
    have hac0 : c0 = a := Option.some_inj.mp ha
    subst hac0
    rcases List.mem_cons.mp hq with rfl | hq2
    · simp
    · cases rest with
      | nil => cases hq2
      | cons c1 r =>
        have hadj : adjP (pointPos c0) (pointPos c1) := (List.chain'_cons.mp hc).1
        have hstep := adjP_dvd (pointPos c0) (pointPos c1) hadj
        rw [pointPos_def, pointPos_def] at hstep
        have ih2 := ih c1 rfl (List.chain'_cons.mp hc).2 q hq2
        have h1 := ih2.1
        have h2 := ih2.2
        have h3 := hstep.1
        have h4 := hstep.2
        constructor <;> omega


theorem route_lattice (obstacles : List Rect) (bounds : Bounds) (sx sy : Int)
    (v : List Point) (h : RouteOK obstacles bounds sx sy v) :
    ∀ q ∈ v, (20 : Int) ∣ (q.x - sx) ∧ (20 : Int) ∣ (q.y - sy) := by
  intro q hq
  simpa using chain_lattice v ⟨sx, sy⟩ h.1 h.2.1 q hq

theorem getLast?_mem_self {α : Type} (l : List α) (a : α) (h : l.getLast? = some a) :
    a ∈ l := by
  rcases List.mem_getLast?_eq_getLast (Option.mem_def.mpr h) with ⟨hne, heq⟩
  rw [heq]
  exact List.getLast_mem hne

/-- When the A* loop reports a found route, that route is the parent chain of
a well-formed node that passes the goal test; and — for grid-aligned snapped
endpoints — no competing grid route that reaches the goal region is strictly
shorter. -/
theorem aStarLoop_found (obstacles : List Rect) (bounds : Bounds)
    (sx sy ex ey : Int)
    (hdvd : (20 : Int) ∣ sx ∧ (20 : Int) ∣ sy ∧ (20 : Int) ∣ ex ∧ (20 : Int) ∣ ey) :
    ∀ (fuel : Nat) (openN : List Node) (closed : List (Int × Int)) (pth : List Point),
      SInv obstacles bounds sx sy ex ey openN closed →
      aStarLoop obstacles bounds ex ey fuel openN closed = some (.found pth) →
      ∃ cur, NodeWF obstacles bounds sx sy ex ey cur ∧
        (cur.x - ex).natAbs < 20 ∧ (cur.y - ey).natAbs < 20 ∧
        pth = reconstructPath cur ∧
        ∀ v t, RouteOK obstacles bounds sx sy v → v.getLast? = some t →
          (t.x - ex).natAbs < 20 → (t.y - ey).natAbs < 20 →
          (pth.length : Int) ≤ (v.length : Int) := by
  intro fuel
  induction fuel with
  | zero =>
    intro openN closed pth hInv heq
    simp [aStarLoop] at heq
  | succ fuel ih =>
    intro openN closed pth hInv heq
    cases openN with
    | nil => simp [aStarLoop] at heq
    | cons n0 ns =>
      simp only [aStarLoop] at heq
      split at heq
      · next hGoal =>
        have hpth : pth = reconstructPath (selectMin n0 ns).1 :=
          (SearchOut.found.inj (Option.some_inj.mp heq)).symm
        set cur := (selectMin n0 ns).1 with hcurdef
        have hcurmem : cur ∈ n0 :: ns :=
          (selectMin_perm n0 ns).mem_iff.mp (List.mem_cons_self _ _)
        have hwfcur := hInv.wf cur hcurmem
        refine ⟨cur, hwfcur, hGoal.1, hGoal.2, hpth, ?_⟩
        intro v t hroute hlast htx hty
        have htm : t ∈ v := getLast?_mem_self v t hlast
        have hlat := route_lattice obstacles bounds sx sy v hroute t htm
        obtain ⟨e1, e2, e3, e4⟩ := hdvd
        have ht : t.x = ex ∧ t.y = ey := by
          obtain ⟨d1, d2⟩ := hlat
          constructor <;> omega
        have htnc : (t.x, t.y) ∉ closed := by
          rw [ht.1, ht.2]; exact hInv.endOpen
        rcases hInv.inv5 v t hroute hlast htnc with ⟨v1, v2, rfl, n, hn, hhead2, hgn⟩
        have hfmin : cur.f ≤ n.f := selectMin_min n0 ns n hn
        have hnwf := hInv.wf n hn
        have hcl := NodeWF_lattice obstacles bounds sx sy ex ey cur hwfcur
        have hcxy : cur.x = ex ∧ cur.y = ey := by
          obtain ⟨d1, d2⟩ := hcl
          obtain ⟨g1, g2⟩ := hGoal
          constructor <;> omega
        have hmc : manh (cur.x, cur.y) (ex, ey) = 0 := by
          rw [hcxy.1, hcxy.2]; simp [manh]
        have hw2ne : v2 ≠ [] := by
          intro hc; rw [hc] at hhead2; cases hhead2
        have hlast2 : v2.getLast? = some t := by
          rw [← hlast]; symm; exact List.getLast?_append_of_ne_nil v1 hw2ne
        have hchain2 := (List.chain'_append.mp hroute.2.1).2.1
        have hmanh2 := chain_manh v2 hchain2 ⟨n.x, n.y⟩ t hhead2 hlast2
        simp only [pointPos_mk] at hmanh2
        have hpt : pointPos t = (ex, ey) := by
          rw [pointPos_def, ht.1, ht.2]
        rw [hpt] at hmanh2
        have hglen := reconstructPath_g obstacles bounds sx sy ex ey cur hwfcur
        rw [← hpth] at hglen
        have hle2 : (1 : Int) ≤ (v2.length : Int) := by
          cases v2 with
          | nil => exact absurd rfl hw2ne
          | cons c r => simp only [List.length_cons]; push_cast; omega
        have hlen : ((v1 ++ v2).length : Int) = (v1.length : Int) + (v2.length : Int) := by
          simp
        have hg0 := NodeWF_g_nonneg obstacles bounds sx sy ex ey cur hwfcur
        have hng0' := NodeWF_g_nonneg obstacles bounds sx sy ex ey n hnwf
        rcases NodeWF_f_eq obstacles bounds sx sy ex ey cur hwfcur with hcf | ⟨hcf, hcg0⟩ <;>
          rcases NodeWF_f_eq obstacles bounds sx sy ex ey n hnwf with hnf | ⟨hnf, hng0⟩ <;>
          omega
      · next hGoal =>
        exact ih _ _ pth (SInv_step obstacles bounds sx sy ex ey n0 ns closed hInv hGoal) heq

instance adjP_decidable (a b : Int × Int) : Decidable (adjP a b) :=
  inferInstanceAs (Decidable (_ = _ ∨ _ = _ ∨ _ = _ ∨ _ = _))

theorem snap_dvd (a : Int) : (20 : Int) ∣ snapToGrid a :=
  Dvd.intro _ rfl

theorem findPath_found_eq (start endPt : Point) (obstacles : List Rect)
    (bounds : Bounds) (p : List Point)
    (h : aStarLoop obstacles bounds (snapToGrid endPt.x) (snapToGrid endPt.y)
      (searchFuel bounds)
      [Node.root (snapToGrid start.x) (snapToGrid start.y) 0 0 0] [] =
        some (.found p)) :
    findPath start endPt obstacles bounds = p := by
  simp only [findPath]
  rw [h]

theorem findPath_exhausted_eq (start endPt : Point) (obstacles : List Rect)
    (bounds : Bounds)
    (h : aStarLoop obstacles bounds (snapToGrid endPt.x) (snapToGrid endPt.y)
      (searchFuel bounds)
      [Node.root (snapToGrid start.x) (snapToGrid start.y) 0 0 0] [] =
        some .exhausted) :
    findPath start endPt obstacles bounds = [start, endPt] := by
  simp only [findPath]
  rw [h]

theorem isObstacle_false_iff (x y : Int) (obstacles : List Rect) :
    isObstacle x y obstacles = false ↔
      ∀ o ∈ obstacles, ¬(o.x - GRID_SIZE ≤ x ∧ x ≤ o.x + o.width + GRID_SIZE ∧
        o.y - GRID_SIZE ≤ y ∧ y ≤ o.y + o.height + GRID_SIZE) := by
  simp [isObstacle]

/-- C10: when a route is found, every returned point lies on the 20-unit
grid, and consecutive points differ by exactly 20 units in exactly one
axis. -/
theorem C10_grid_walk (start endPt : Point) (obstacles : List Rect)
    (bounds : Bounds) (p : List Point)
    (h : aStarLoop obstacles bounds (snapToGrid endPt.x) (snapToGrid endPt.y)
      (searchFuel bounds)
      [Node.root (snapToGrid start.x) (snapToGrid start.y) 0 0 0] [] =
        some (.found p)) :
    findPath start endPt obstacles bounds = p ∧
    (∀ q ∈ p, (20 : Int) ∣ q.x ∧ (20 : Int) ∣ q.y) ∧
    List.Chain' (fun a b => ((b.x - a.x).natAbs = 20 ∧ b.y = a.y) ∨
      (b.x = a.x ∧ (b.y - a.y).natAbs = 20)) p := by
  have hdvd : (20 : Int) ∣ snapToGrid start.x ∧ (20 : Int) ∣ snapToGrid start.y ∧
      (20 : Int) ∣ snapToGrid endPt.x ∧ (20 : Int) ∣ snapToGrid endPt.y :=
    ⟨snap_dvd _, snap_dvd _, snap_dvd _, snap_dvd _⟩
  rcases aStarLoop_found obstacles bounds (snapToGrid start.x) (snapToGrid start.y)
    (snapToGrid endPt.x) (snapToGrid endPt.y) hdvd (searchFuel bounds) _ _ p
    (SInv_init obstacles bounds _ _ _ _) h with ⟨cur, hwf, hgx, hgy, hpth, hopt⟩
  subst hpth
  refine ⟨findPath_found_eq start endPt obstacles bounds _ h, ?_, ?_⟩
  · intro q hq
    have hroute := reconstructPath_routeOK obstacles bounds _ _ _ _ cur hwf
    have hlat := route_lattice obstacles bounds _ _ _ hroute q hq
    obtain ⟨d1, d2, d3, d4⟩ := hdvd
    obtain ⟨l1, l2⟩ := hlat
    constructor <;> omega
  · have hchain := reconstructPath_chain obstacles bounds _ _ _ _ cur hwf
    refine List.Chain'.imp ?_ hchain
    intro a b hab
    rcases hab with hh | hh | hh | hh <;>
      · rw [pointPos_def, pointPos_def, Prod.mk.injEq] at hh
        obtain ⟨h1, h2⟩ := hh
        omega

/-- C6: when a route is found and the snapped start is not itself inside a
buffered obstacle, no returned point lies strictly inside any obstacle
rectangle expanded by one cell (20 units) of buffer. -/
theorem C6_obstacle_avoidance (start endPt : Point) (obstacles : List Rect)
    (bounds : Bounds) (p : List Point)
    (h : aStarLoop obstacles bounds (snapToGrid endPt.x) (snapToGrid endPt.y)
      (searchFuel bounds)
      [Node.root (snapToGrid start.x) (snapToGrid start.y) 0 0 0] [] =
        some (.found p))
    (hstart : isObstacle (snapToGrid start.x) (snapToGrid start.y) obstacles = false) :
    ∀ q ∈ findPath start endPt obstacles bounds, ∀ o ∈ obstacles,
      ¬(o.x - 20 < q.x ∧ q.x < o.x + o.width + 20 ∧
        o.y - 20 < q.y ∧ q.y < o.y + o.height + 20) := by
  have hdvd : (20 : Int) ∣ snapToGrid start.x ∧ (20 : Int) ∣ snapToGrid start.y ∧
      (20 : Int) ∣ snapToGrid endPt.x ∧ (20 : Int) ∣ snapToGrid endPt.y :=
    ⟨snap_dvd _, snap_dvd _, snap_dvd _, snap_dvd _⟩
  rcases aStarLoop_found obstacles bounds (snapToGrid start.x) (snapToGrid start.y)
    (snapToGrid endPt.x) (snapToGrid endPt.y) hdvd (searchFuel bounds) _ _ p
    (SInv_init obstacles bounds _ _ _ _) h with ⟨cur, hwf, hgx, hgy, hpth, hopt⟩
  rw [findPath_found_eq start endPt obstacles bounds p h, hpth]
  intro q hq o ho
  rcases reconstructPath_free obstacles bounds _ _ _ _ cur hwf q hq with hs | hf
  · have := (isObstacle_false_iff _ _ obstacles).mp hstart o ho
    rw [hs.1, hs.2]
    simp only [GRID_SIZE] at this
    intro hc
    exact this ⟨by omega, by omega, by omega, by omega⟩
  · have := (isObstacle_false_iff q.x q.y obstacles).mp hf.1 o ho
    simp only [GRID_SIZE] at this
    intro hc
    exact this ⟨by omega, by omega, by omega, by omega⟩

/-- C1 (amended): `findPath` always returns at least one point; when the open
set empties it returns exactly `[start, end]`; when a route is found, the
first point is the grid-snapped start and the last point lies within one
grid cell of the grid-snapped end. -/
theorem C1_amended (start endPt : Point) (obstacles : List Rect) (bounds : Bounds) :
    1 ≤ (findPath start endPt obstacles bounds).length ∧
    (aStarLoop obstacles bounds (snapToGrid endPt.x) (snapToGrid endPt.y)
        (searchFuel bounds)
        [Node.root (snapToGrid start.x) (snapToGrid start.y) 0 0 0] [] =
          some .exhausted →
      findPath start endPt obstacles bounds = [start, endPt]) ∧
    ∀ p, aStarLoop obstacles bounds (snapToGrid endPt.x) (snapToGrid endPt.y)
        (searchFuel bounds)
        [Node.root (snapToGrid start.x) (snapToGrid start.y) 0 0 0] [] =
          some (.found p) →
      findPath start endPt obstacles bounds = p ∧
      p.head? = some ⟨snapToGrid start.x, snapToGrid start.y⟩ ∧
      ∃ q, p.getLast? = some q ∧ (q.x - snapToGrid endPt.x).natAbs < 20 ∧
        (q.y - snapToGrid endPt.y).natAbs < 20 := by
  have hdvd : (20 : Int) ∣ snapToGrid start.x ∧ (20 : Int) ∣ snapToGrid start.y ∧
      (20 : Int) ∣ snapToGrid endPt.x ∧ (20 : Int) ∣ snapToGrid endPt.y :=
    ⟨snap_dvd _, snap_dvd _, snap_dvd _, snap_dvd _⟩
  refine ⟨?_, findPath_exhausted_eq start endPt obstacles bounds, ?_⟩
  · rcases hres : aStarLoop obstacles bounds (snapToGrid endPt.x) (snapToGrid endPt.y)
      (searchFuel bounds)
      [Node.root (snapToGrid start.x) (snapToGrid start.y) 0 0 0] [] with
      - | out
    · simp only [findPath]
      rw [hres]
      simp
    · cases out with
      | exhausted =>
        rw [findPath_exhausted_eq start endPt obstacles bounds hres]
        simp
      | found p =>
        rcases aStarLoop_found obstacles bounds (snapToGrid start.x)
          (snapToGrid start.y) (snapToGrid endPt.x) (snapToGrid endPt.y) hdvd
          (searchFuel bounds) _ _ p (SInv_init obstacles bounds _ _ _ _) hres with
          ⟨cur, hwf, hgx, hgy, hpth, hopt⟩
        rw [findPath_found_eq start endPt obstacles bounds p hres, hpth]
        have := reconstructPath_ne_nil cur
        exact List.length_pos.mpr this
  · intro p hres
    rcases aStarLoop_found obstacles bounds (snapToGrid start.x) (snapToGrid start.y)
      (snapToGrid endPt.x) (snapToGrid endPt.y) hdvd (searchFuel bounds) _ _ p
      (SInv_init obstacles bounds _ _ _ _) hres with ⟨cur, hwf, hgx, hgy, hpth, hopt⟩
    subst hpth
    refine ⟨findPath_found_eq start endPt obstacles bounds _ hres, ?_, ?_⟩
    · exact reconstructPath_head obstacles bounds _ _ _ _ cur hwf
    · exact ⟨⟨cur.x, cur.y⟩, reconstructPath_getLast cur, hgx, hgy⟩

/-- C5: when the search reaches the goal test, the returned grid path is
optimal — no 4-directional grid walk from the snapped start through free
in-bounds cells to a cell satisfying the goal test has strictly fewer
steps. -/
theorem C5_optimal (start endPt : Point) (obstacles : List Rect)
    (bounds : Bounds) (p : List Point)
    (h : aStarLoop obstacles bounds (snapToGrid endPt.x) (snapToGrid endPt.y)
      (searchFuel bounds)
      [Node.root (snapToGrid start.x) (snapToGrid start.y) 0 0 0] [] =
        some (.found p)) :
    findPath start endPt obstacles bounds = p ∧
    ∀ v t, RouteOK obstacles bounds (snapToGrid start.x) (snapToGrid start.y) v →
      v.getLast? = some t →
      (t.x - snapToGrid endPt.x).natAbs < 20 →
      (t.y - snapToGrid endPt.y).natAbs < 20 →
      p.length ≤ v.length := by
  have hdvd : (20 : Int) ∣ snapToGrid start.x ∧ (20 : Int) ∣ snapToGrid start.y ∧
      (20 : Int) ∣ snapToGrid endPt.x ∧ (20 : Int) ∣ snapToGrid endPt.y :=
    ⟨snap_dvd _, snap_dvd _, snap_dvd _, snap_dvd _⟩
  rcases aStarLoop_found obstacles bounds (snapToGrid start.x) (snapToGrid start.y)
    (snapToGrid endPt.x) (snapToGrid endPt.y) hdvd (searchFuel bounds) _ _ p
    (SInv_init obstacles bounds _ _ _ _) h with ⟨cur, hwf, hgx, hgy, hpth, hopt⟩
  refine ⟨findPath_found_eq start endPt obstacles bounds p h, ?_⟩
  intro v t hroute hlast htx hty
  exact_mod_cast hopt v t hroute hlast htx hty

/-! ### Parser invariants -/

theorem markPK_fields (nameLC : List Char) (cols : List Column) :
    ∀ c ∈ markPK nameLC cols, ∃ c0 ∈ cols,
      c.name = c0.name ∧ c.isNullable = c0.isNullable ∧
      c.isForeignKey = c0.isForeignKey ∧ c.references = c0.references ∧
      (c.isPrimaryKey = c0.isPrimaryKey ∨ c.isPrimaryKey = true) := by
  induction cols with
  | nil => intro c hc; cases hc
  | cons c0 cs ih =>
    intro c hc
    simp only [markPK] at hc
    split at hc
    · rcases List.mem_cons.mp hc with rfl | hc2
      · exact ⟨c0, List.mem_cons_self _ _, rfl, rfl, rfl, rfl, Or.inr rfl⟩
      · exact ⟨c, List.mem_cons.mpr (Or.inr hc2), rfl, rfl, rfl, rfl, Or.inl rfl⟩
    · rcases List.mem_cons.mp hc with rfl | hc2
      · exact ⟨c, List.mem_cons_self _ _, rfl, rfl, rfl, rfl, Or.inl rfl⟩
      · rcases ih c hc2 with ⟨c1, hc1, h⟩
        exact ⟨c1, List.mem_cons.mpr (Or.inr hc1), h⟩

theorem markPK_foldl_fields (names : List (List Char)) :
    ∀ (cols : List Column), ∀ c ∈
        names.foldl (fun cs pk => markPK (lowerChars pk) cs) cols,
      ∃ c0 ∈ cols,
        c.name = c0.name ∧ c.isNullable = c0.isNullable ∧
        c.isForeignKey = c0.isForeignKey ∧ c.references = c0.references ∧
        (c.isPrimaryKey = c0.isPrimaryKey ∨ c.isPrimaryKey = true) := by
  induction names with
  | nil =>
    intro cols c hc
    exact ⟨c, hc, rfl, rfl, rfl, rfl, Or.inl rfl⟩
  | cons nm names ih =>
    intro cols c hc
    simp only [List.foldl_cons] at hc
    rcases ih _ c hc with ⟨c1, hc1, h1, h2, h3, h4, h5⟩
    rcases markPK_fields (lowerChars nm) cols c1 hc1 with ⟨c0, hc0, g1, g2, g3, g4, g5⟩
    refine ⟨c0, hc0, h1.trans g1, h2.trans g2, h3.trans g3, h4.trans g4, ?_⟩
    rcases h5 with h5 | h5
    · rcases g5 with g5 | g5
      · exact Or.inl (h5.trans g5)
      · exact Or.inr (h5.trans g5)
    · exact Or.inr h5

theorem markFK_fields (nameLC tbl col : List Char) (cols : List Column) :
    ∀ c ∈ markFK nameLC tbl col cols, ∃ c0 ∈ cols,
      c.name = c0.name ∧ c.isNullable = c0.isNullable ∧
      c.isPrimaryKey = c0.isPrimaryKey ∧
      ((c.isForeignKey = c0.isForeignKey ∧ c.references = c0.references) ∨
        (c.isForeignKey = true ∧ c.references.isSome = true)) := by
  induction cols with
  | nil => intro c hc; cases hc
  | cons c0 cs ih =>
    intro c hc
    simp only [markFK] at hc
    split at hc
    · rcases List.mem_cons.mp hc with rfl | hc2
      · exact ⟨c0, List.mem_cons_self _ _, rfl, rfl, rfl, Or.inr ⟨rfl, rfl⟩⟩
      · exact ⟨c, List.mem_cons.mpr (Or.inr hc2), rfl, rfl, rfl, Or.inl ⟨rfl, rfl⟩⟩
    · rcases List.mem_cons.mp hc with rfl | hc2
      · exact ⟨c, List.mem_cons_self _ _, rfl, rfl, rfl, Or.inl ⟨rfl, rfl⟩⟩
      · rcases ih c hc2 with ⟨c1, hc1, h⟩
        exact ⟨c1, List.mem_cons.mpr (Or.inr hc1), h⟩

/-- Per-column characterization of one clause-processing step: every column
of the output either survived from the input (with only the mutations the
constraint branches perform) or is the freshly built column of a
column-definition clause. -/
theorem processClause_spec (tn : List Char) (cols : List Column)
    (rels : List Relationship) (cl : List Char) :
    ∀ c ∈ (processClause tn cols rels cl).1,
      (∃ c0 ∈ cols,
        c.isNullable = c0.isNullable ∧
        (c.isPrimaryKey = c0.isPrimaryKey ∨
          (c.isPrimaryKey = true ∧
            isPrefixOfCh "PRIMARY KEY".toList (upperChars (trimChars cl)) = true)) ∧
        ((c.isForeignKey = c0.isForeignKey ∧ c.references = c0.references) ∨
          (c.isForeignKey = true ∧ c.references.isSome = true))) ∨
      (isPrefixOfCh "PRIMARY KEY".toList (upperChars (trimChars cl)) = false ∧
        c.isPrimaryKey = containsSub "PRIMARY KEY".toList (upperChars (trimChars cl)) ∧
        c.isNullable = (!containsSub "NOT NULL".toList (upperChars (trimChars cl)) &&
          !containsSub "PRIMARY KEY".toList (upperChars (trimChars cl))) ∧
        ((c.references.isSome = true ∧ c.isForeignKey = true) ∨
          (c.references = none ∧
            c.isForeignKey = containsSub "REFERENCES".toList (upperChars (trimChars cl)) ∧
            findRef (trimChars cl) = none))) := by
  intro c hc
  simp only [processClause] at hc
  split at hc
  · exact Or.inl ⟨c, hc, rfl, Or.inl rfl, Or.inl ⟨rfl, rfl⟩⟩
  · split at hc
    · next hpk =>
      split at hc
      · rcases markPK_foldl_fields _ cols c hc with ⟨c0, hc0, h1, h2, h3, h4, h5⟩
        refine Or.inl ⟨c0, hc0, h2, ?_, Or.inl ⟨h3, h4⟩⟩
        rcases h5 with h5 | h5
        · exact Or.inl h5
        · exact Or.inr ⟨h5, hpk⟩
      · exact Or.inl ⟨c, hc, rfl, Or.inl rfl, Or.inl ⟨rfl, rfl⟩⟩
    · split at hc
      · split at hc
        · next fkCol refTbl refCol heq =>
          rcases markFK_fields (lowerChars fkCol) refTbl refCol cols c hc with
            ⟨c0, hc0, h1, h2, h3, h4⟩
          exact Or.inl ⟨c0, hc0, h2, Or.inl h3, h4⟩
        · exact Or.inl ⟨c, hc, rfl, Or.inl rfl, Or.inl ⟨rfl, rfl⟩⟩
      · split at hc
        · exact Or.inl ⟨c, hc, rfl, Or.inl rfl, Or.inl ⟨rfl, rfl⟩⟩
        · next hnpk hnfk hncon =>
          split at hc
          · exact Or.inl ⟨c, hc, rfl, Or.inl rfl, Or.inl ⟨rfl, rfl⟩⟩
          · next cname ctype hmatch =>
            split at hc
            · next tbl rcol href =>
              rcases List.mem_append.mp hc with hcold | hcnew
              · exact Or.inl ⟨c, hcold, rfl, Or.inl rfl, Or.inl ⟨rfl, rfl⟩⟩
              · rcases List.mem_singleton.mp hcnew with rfl
                refine Or.inr ⟨Bool.not_eq_true _ ▸ hnpk, rfl, rfl, Or.inl ⟨rfl, rfl⟩⟩
            · next href =>
              rcases List.mem_append.mp hc with hcold | hcnew
              · exact Or.inl ⟨c, hcold, rfl, Or.inl rfl, Or.inl ⟨rfl, rfl⟩⟩
              · rcases List.mem_singleton.mp hcnew with rfl
                exact Or.inr ⟨Bool.not_eq_true _ ▸ hnpk, rfl, rfl,
                  Or.inr ⟨rfl, rfl, href⟩⟩

theorem clauses_foldl_inv (tn : List Char) (cls : List (List Char))
    (P : Column → Prop)
    (hstep : ∀ cols rels cl, cl ∈ cls → (∀ c ∈ cols, P c) →
      ∀ c ∈ (processClause tn cols rels cl).1, P c) :
    ∀ (init : List Column × List Relationship), (∀ c ∈ init.1, P c) →
      ∀ c ∈ (cls.foldl (fun cr cl => processClause tn cr.1 cr.2 cl) init).1, P c := by
  induction cls with
  | nil => intro init hinit c hc; exact hinit c hc
  | cons cl cls ih =>
    intro init hinit c hc
    simp only [List.foldl_cons] at hc
    refine ih (fun cols rels cl2 h2 =>
      hstep cols rels cl2 (List.mem_cons.mpr (Or.inr h2))) _ ?_ c hc
    exact hstep init.1 init.2 cl (List.mem_cons_self _ _) hinit

theorem stmts_foldl_inv (stmts : List (List Char × List Char)) (P : Column → Prop)
    (hstep : ∀ stmt ∈ stmts, ∀ cols rels cl, cl ∈ splitColumns stmt.2 →
      (∀ c ∈ cols, P c) → ∀ c ∈ (processClause stmt.1 cols rels cl).1, P c) :
    ∀ acc : List Table × List Relationship, (∀ t ∈ acc.1, ∀ c ∈ t.columns, P c) →
      ∀ t ∈ (stmts.foldl buildTable acc).1, ∀ c ∈ t.columns, P c := by
  induction stmts with
  | nil => intro acc hacc; exact hacc
  | cons stmt stmts ih =>
    intro acc hacc
    simp only [List.foldl_cons]
    refine ih (fun s hs => hstep s (List.mem_cons.mpr (Or.inr hs))) _ ?_
    intro t ht c hc
    simp only [buildTable] at ht
    rcases List.mem_append.mp ht with h1 | h2
    · exact hacc t h1 c hc
    · rcases List.mem_singleton.mp h2 with rfl
      refine clauses_foldl_inv stmt.1 (splitColumns stmt.2) P
        (fun cols rels cl hcl => hstep stmt (List.mem_cons_self _ _) cols rels cl hcl)
        ([], acc.2) ?_ c hc
      intro c0 hc0
      cases hc0

theorem parseSQL_columns_inv (sql : String) (P : Column → Prop)
    (hstep : ∀ stmt ∈ scanCreates (cleanSQL sql.toList), ∀ cols rels cl,
      cl ∈ splitColumns stmt.2 → (∀ c ∈ cols, P c) →
      ∀ c ∈ (processClause stmt.1 cols rels cl).1, P c) :
    ∀ t ∈ (parseSQL sql).tables, ∀ c ∈ t.columns, P c := by
  intro t ht
  simp only [parseSQL] at ht
  split at ht
  · cases ht
  · exact stmts_foldl_inv _ P hstep ([], []) (fun t ht2 => by cases ht2) t ht

/-- The column a JSON column entry maps to (proved below to characterize
`parseJSONSchema`). -/
def jsonColumnOf (cd : JColumnInput) : Column :=
  { name := cd.name, type := cd.type,
    isPrimaryKey := cd.primaryKey.getD false,
    isForeignKey := cd.foreignKey.isSome,
    isNullable := cd.nullable != some false,
    references := cd.foreignKey }

/-- The table a JSON table entry maps to. -/
def jsonTableOf (td : JTableInput) : Table :=
  { id := String.mk (lowerChars td.name.toList), name := td.name,
    columns := td.columns.map jsonColumnOf }

theorem buildJSONColumn_foldl (tname : String) (cds : List JColumnInput) :
    ∀ acc : List Column × List Relationship,
      (cds.foldl (buildJSONColumn tname) acc).1 = acc.1 ++ cds.map jsonColumnOf := by
  induction cds with
  | nil => intro acc; simp
  | cons cd cds ih =>
    intro acc
    simp only [List.foldl_cons, List.map_cons]
    rw [ih]
    simp [buildJSONColumn, jsonColumnOf]

theorem parseJSONSchema_tables (tabs : List JTableInput) :
    (parseJSONSchema (.doc (some tabs))).schema.tables = tabs.map jsonTableOf := by
  suffices h : ∀ acc : List Table × List Relationship,
      (tabs.foldl buildJSONTable acc).1 = acc.1 ++ tabs.map jsonTableOf by
    simpa [parseJSONSchema] using h ([], [])
  induction tabs with
  | nil => intro acc; simp
  | cons td tds ih =>
    intro acc
    simp only [List.foldl_cons, List.map_cons]
    rw [ih]
    simp [buildJSONTable, jsonTableOf, buildJSONColumn_foldl td.name td.columns]

/-- C2 (amended): `isPrimaryKey → ¬isNullable` holds for SQL schemas whose
primary keys are all declared inline in column definitions (no table-level
`PRIMARY KEY` constraint clause), and for JSON schemas in which every
`primaryKey` column also carries `nullable: false`.  A table-level
`PRIMARY KEY` constraint or the bare JSON `primaryKey` flag sets
`isPrimaryKey` without touching `isNullable`. -/
theorem C2_amended :
    (∀ sql : String,
      (∀ stmt ∈ scanCreates (cleanSQL sql.toList), ∀ cl ∈ splitColumns stmt.2,
        isPrefixOfCh "PRIMARY KEY".toList (upperChars (trimChars cl)) = false) →
      ∀ t ∈ (parseSQL sql).tables, ∀ c ∈ t.columns,
        c.isPrimaryKey = true → c.isNullable = false) ∧
    (∀ tabs : List JTableInput,
      (∀ ti ∈ tabs, ∀ cd ∈ ti.columns, cd.primaryKey = some true →
        cd.nullable = some false) →
      ∀ t ∈ (parseJSONSchema (.doc (some tabs))).schema.tables, ∀ c ∈ t.columns,
        c.isPrimaryKey = true → c.isNullable = false) := by
  constructor
  · intro sql hcond
    refine parseSQL_columns_inv sql
      (fun c => c.isPrimaryKey = true → c.isNullable = false) ?_
    intro stmt hstmt cols rels cl hcl hcols c hc hpk
    rcases processClause_spec stmt.1 cols rels cl c hc with
      ⟨c0, hc0, h1, h2, h3⟩ | ⟨hp, h2, h3, h4⟩
    · rcases h2 with h2 | ⟨h2t, h2pk⟩
      · rw [h1]
        exact hcols c0 hc0 (h2 ▸ hpk)
      · rw [hcond stmt hstmt cl hcl] at h2pk
        cases h2pk
    · rw [h2] at hpk
      rw [h3, hpk]
      simp
  · intro tabs hcond t ht c hc hpk
    rw [parseJSONSchema_tables] at ht
    rcases List.mem_map.mp ht with ⟨ti, hti, rfl⟩
    rcases List.mem_map.mp (by simpa [jsonTableOf] using hc) with ⟨cd, hcd, rfl⟩
    simp only [jsonColumnOf] at hpk ⊢
    have hp : cd.primaryKey = some true := by
      rcases h : cd.primaryKey with - | b
      · rw [h] at hpk
        cases hpk
      · rw [h] at hpk
        cases b
        · cases hpk
        · rfl
    rw [hcond ti hti cd hcd hp]
    rfl

/-- C2 counterexample: a table-level `PRIMARY KEY (a)` constraint marks the
column a primary key but leaves it nullable, so the claimed invariant fails
as stated. -/
theorem C2_counterexample :
    (parseSQL "CREATE TABLE t (a int, PRIMARY KEY (a))").tables.map
        (fun t => t.columns.map (fun c => (c.isPrimaryKey, c.isNullable))) =
      [[(true, true)]] := by decide

/-- C3 (amended): `isForeignKey → references present` holds unconditionally
for `parseJSONSchema`, and for `parseSQL` provided every column clause
mentioning `REFERENCES` contains a well-formed `REFERENCES table(column)`
fragment; a clause with the bare keyword sets `isForeignKey` with no
`references`. -/
theorem C3_amended :
    (∀ sql : String,
      (∀ stmt ∈ scanCreates (cleanSQL sql.toList), ∀ cl ∈ splitColumns stmt.2,
        containsSub "REFERENCES".toList (upperChars (trimChars cl)) = true →
        (findRef (trimChars cl)).isSome = true) →
      ∀ t ∈ (parseSQL sql).tables, ∀ c ∈ t.columns,
        c.isForeignKey = true → c.references.isSome = true) ∧
    (∀ tabs : List JTableInput,
      ∀ t ∈ (parseJSONSchema (.doc (some tabs))).schema.tables, ∀ c ∈ t.columns,
        c.isForeignKey = true → c.references.isSome = true) := by
  constructor
  · intro sql hcond
    refine parseSQL_columns_inv sql
      (fun c => c.isForeignKey = true → c.references.isSome = true) ?_
    intro stmt hstmt cols rels cl hcl hcols c hc hfk
    rcases processClause_spec stmt.1 cols rels cl c hc with
      ⟨c0, hc0, h1, h2, h3⟩ | ⟨hp, h2, h3, h4⟩
    · rcases h3 with ⟨hf, hr⟩ | ⟨hf, hr⟩
      · rw [hr]
        exact hcols c0 hc0 (hf ▸ hfk)
      · exact hr
    · rcases h4 with ⟨hr, hf⟩ | ⟨hr, hf, hfr⟩
      · exact hr
      · rw [hf] at hfk
        have := hcond stmt hstmt cl hcl hfk
        rw [hfr] at this
        cases this
  · intro tabs t ht c hc hfk
    rw [parseJSONSchema_tables] at ht
    rcases List.mem_map.mp ht with ⟨ti, hti, rfl⟩
    rcases List.mem_map.mp (by simpa [jsonTableOf] using hc) with ⟨cd, hcd, rfl⟩
    simpa [jsonColumnOf] using hfk

/-- C3 counterexample: `a int REFERENCES b` (no target column) sets
`isForeignKey = true` with `references` absent. -/
theorem C3_counterexample :
    (parseSQL "CREATE TABLE t (a int REFERENCES b)").tables.map
        (fun t => t.columns.map (fun c => (c.isForeignKey, c.references))) =
      [[(true, none)]] := by decide

/-- C4 (amended): when nullability is unspecified the two extractors AGREE —
both default to nullable.  A SQL column definition with neither `NOT NULL`
nor `PRIMARY KEY` yields `isNullable = true` (not `false` as claimed), and a
JSON column entry without the `nullable` flag also yields
`isNullable = true`. -/
theorem C4_amended :
    (∀ (tn : List Char) (cols : List Column) (rels : List Relationship)
        (cl : List Char) (cname ctype : List Char),
      matchColDef (trimChars cl) = some (cname, ctype) →
      isPrefixOfCh "PRIMARY KEY".toList (upperChars (trimChars cl)) = false →
      isPrefixOfCh "FOREIGN KEY".toList (upperChars (trimChars cl)) = false →
      isPrefixOfCh "CONSTRAINT".toList (upperChars (trimChars cl)) = false →
      containsSub "NOT NULL".toList (upperChars (trimChars cl)) = false →
      containsSub "PRIMARY KEY".toList (upperChars (trimChars cl)) = false →
      ∃ col, (processClause tn cols rels cl).1 = cols ++ [col] ∧
        col.isNullable = true) ∧
    (∀ tabs : List JTableInput, ∀ ti ∈ tabs, ∀ cd ∈ ti.columns,
      cd.nullable = none →
      ∃ t ∈ (parseJSONSchema (.doc (some tabs))).schema.tables,
        ∃ c ∈ t.columns, c.name = cd.name ∧ c.isNullable = true) := by
  constructor
  · intro tn cols rels cl cname ctype hmatch hpk hfk hcon hnn hpk2
    have hne : (trimChars cl).isEmpty = false := by
      rcases h : trimChars cl with - | ⟨c0, rest⟩
      · rw [h] at hmatch
        cases hmatch
      · rfl
    simp only [processClause, hne, hpk, hfk, hcon, hmatch, Bool.false_eq_true,
      if_false]
    rcases hfr : findRef (trimChars cl) with - | ⟨tbl, rcol⟩ <;>
      · refine ⟨_, rfl, ?_⟩
        show (!containsSub "NOT NULL".toList (upperChars (trimChars cl)) &&
          !containsSub "PRIMARY KEY".toList (upperChars (trimChars cl))) = true
        rw [hnn, hpk2]
        rfl
  · intro tabs ti hti cd hcd hnul
    refine ⟨jsonTableOf ti, ?_, jsonColumnOf cd, ?_, rfl, ?_⟩
    · rw [parseJSONSchema_tables]
      exact List.mem_map_of_mem jsonTableOf hti
    · exact List.mem_map_of_mem jsonColumnOf hcd
    · simp [jsonColumnOf, hnul]

/-- C4 counterexample: `a int` (nothing stated) parses with
`isNullable = true`, refuting the claim that `parseSQL` defaults to
`isNullable = false`. -/
theorem C4_counterexample :
    (parseSQL "CREATE TABLE t (a int)").tables.map
      (fun t => t.columns.map Column.isNullable) = [[true]] := by decide

/-- C9: all three entry points are total functions returning a
result-or-error value (totality is by construction of the embedding), and
whenever the result carries an error the accompanying data is empty — empty
table/relationship lists for the parsers, no data for the importer. -/
theorem C9_error_empty :
    (∀ sql : String, (parseSQL sql).error.isSome = true →
      (parseSQL sql).tables = [] ∧ (parseSQL sql).relationships = []) ∧
    (∀ j : JsonInput, (parseJSONSchema j).error.isSome = true →
      (parseJSONSchema j).schema.tables = [] ∧
        (parseJSONSchema j).schema.relationships = []) ∧
    (∀ i : ImportInput, (importDiagram i).error.isSome = true →
      (importDiagram i).data = none) := by
  refine ⟨?_, ?_, ?_⟩
  · intro sql h
    by_cases hr : (List.foldl buildTable ([], []) (scanCreates (cleanSQL sql.data))).1 = []
    · constructor <;> simp [parseSQL, hr]
    · simp [parseSQL, hr] at h
  · intro j h
    cases j with
    | malformed => exact ⟨rfl, rfl⟩
    | doc tv =>
      cases tv with
      | none => exact ⟨rfl, rfl⟩
      | some tabs => simp [parseJSONSchema] at h
  · intro i h
    cases i with
    | malformed => rfl
    | doc d =>
      rcases hv : d.version with - | v <;> rcases hs : d.schema with - | s <;>
        rcases hp : d.positions with - | pp <;> rcases hw : d.viewState with - | vs <;>
        simp only [importDiagram, hv, hs, hp, hw] at h ⊢ <;> try rfl
      by_cases hveq : (v == "") = true
      · simp [hveq]
      · simp [hveq] at h

/-! ### Path simplifier -/

theorem jsSign_add (a b : Int) (h : jsSign a = jsSign b) :
    jsSign (a + b) = jsSign a := by
  unfold jsSign at h ⊢
  split_ifs at h ⊢ <;> omega

/-- No interior point continues straight from the previous kept point: the
fixed points of the smoothing pass. -/
def noRedundant : Point → List Point → Prop
  | _, [] => True
  | _, [_] => True
  | prev, curr :: next :: rest =>
    ¬(jsSign (curr.x - prev.x) = jsSign (next.x - curr.x) ∧
      jsSign (curr.y - prev.y) = jsSign (next.y - curr.y)) ∧
    noRedundant curr (next :: rest)

theorem smoothGo_ne_nil : ∀ (l : List Point) (p : Point), l ≠ [] →
    smoothGo p l ≠ [] := by
  intro l
  induction l with
  | nil => intro p h; exact absurd rfl h
  | cons c rest ih =>
    intro p h
    cases rest with
    | nil => simp [smoothGo]
    | cons n r =>
      simp only [smoothGo]
      split
      · exact ih p (by simp)
      · simp

theorem smoothGo_head_sign : ∀ (l : List Point) (p c : Point),
    l.head? = some c → ∀ c', (smoothGo p l).head? = some c' →
    jsSign (c'.x - p.x) = jsSign (c.x - p.x) ∧
    jsSign (c'.y - p.y) = jsSign (c.y - p.y) := by
  intro l
  induction l with
  | nil => intro p c h; cases h
  | cons curr rest ih =>
    intro p c h c' h'
    rcases Option.some_inj.mp h with rfl
    cases rest with
    | nil =>
      simp only [smoothGo, List.head?_cons, Option.some_inj] at h'
      rw [← h']
      exact ⟨rfl, rfl⟩
    | cons next r =>
      simp only [smoothGo] at h'
      split at h'
      · next hcond =>
        have hsteps := ih p next rfl c' h'
        have hx : jsSign (next.x - p.x) = jsSign (curr.x - p.x) := by
          have := jsSign_add (curr.x - p.x) (next.x - curr.x) hcond.1
          rw [show curr.x - p.x + (next.x - curr.x) = next.x - p.x by ring] at this
          exact this
        have hy : jsSign (next.y - p.y) = jsSign (curr.y - p.y) := by
          have := jsSign_add (curr.y - p.y) (next.y - curr.y) hcond.2
          rw [show curr.y - p.y + (next.y - curr.y) = next.y - p.y by ring] at this
          exact this
        exact ⟨hsteps.1.trans hx, hsteps.2.trans hy⟩
      · simp only [List.head?_cons, Option.some_inj] at h'
        rw [← h']
        exact ⟨rfl, rfl⟩

theorem smoothGo_noRedundant : ∀ (l : List Point) (p : Point),
    noRedundant p (smoothGo p l) := by
  intro l
  induction l with
  | nil => intro p; trivial
  | cons curr rest ih =>
    intro p
    cases rest with
    | nil => simp [smoothGo, noRedundant]
    | cons next r =>
      simp only [smoothGo]
      split
      · exact ih p
      · next hcond =>
        rcases hout : smoothGo curr (next :: r) with - | ⟨c', rest'⟩
        · exact absurd hout (smoothGo_ne_nil (next :: r) curr (by simp))
        · have hih := ih curr
          rw [hout] at hih
          refine ⟨?_, hih⟩
          have hhead := smoothGo_head_sign (next :: r) curr next rfl c'
            (by rw [hout]; rfl)
          intro hcc
          exact hcond ⟨hcc.1.trans hhead.1, hcc.2.trans hhead.2⟩

theorem smoothGo_fixed : ∀ (l : List Point) (p : Point),
    noRedundant p l → smoothGo p l = l := by
  intro l
  induction l with
  | nil => intro p h; rfl
  | cons curr rest ih =>
    intro p h
    cases rest with
    | nil => rfl
    | cons next r =>
      simp only [smoothGo]
      rw [if_neg h.1]
      rw [ih curr h.2]

/-- C7: `smoothPath` is idempotent, and sequences shorter than 3 points are
returned unchanged. -/
theorem C7_smoothPath_idempotent :
    (∀ p : List Point, smoothPath (smoothPath p) = smoothPath p) ∧
    (∀ p : List Point, p.length < 3 → smoothPath p = p) := by
  have hshort : ∀ p : List Point, p.length < 3 → smoothPath p = p := by
    intro p h
    simp [smoothPath, h]
  refine ⟨?_, hshort⟩
  intro p
  by_cases hlen : p.length < 3
  · rw [hshort p hlen, hshort p hlen]
  · cases p with
    | nil => exact absurd (by simp) hlen
    | cons p0 rest =>
      have h1 : smoothPath (p0 :: rest) = p0 :: smoothGo p0 rest := by
        simp only [smoothPath, if_neg hlen]
      rw [h1]
      by_cases hlen2 : (p0 :: smoothGo p0 rest).length < 3
      · exact hshort _ hlen2
      · have h2 : smoothPath (p0 :: smoothGo p0 rest) =
            p0 :: smoothGo p0 (smoothGo p0 rest) := by
          simp only [smoothPath, if_neg hlen2]
        rw [h2, smoothGo_fixed (smoothGo p0 rest) p0 (smoothGo_noRedundant rest p0)]

/-! ### Export / import round trip -/

/-- C8: re-importing an exported diagram succeeds without error and returns
exactly the exported document — whose schema, positions and view state are
those of the input state. -/
theorem C8_round_trip (st : DiagramState) :
    importDiagram (.doc (toDoc (exportDiagram st))) =
      { data := some (exportDiagram st), error := none } ∧
    (exportDiagram st).schema = st.schema ∧
    (exportDiagram st).positions = st.positions ∧
    (exportDiagram st).viewState.zoom = st.zoom ∧
    (exportDiagram st).viewState.pan = st.pan :=
  ⟨rfl, rfl, rfl, rfl, rfl⟩

/-- C1 counterexample: with `start = end = (1,1)` the goal test succeeds on
the snapped start immediately and `findPath` returns the single snapped
point `[(0,0)]` — fewer than 2 points, and neither endpoint equals the
requested ones. -/
theorem C1_counterexample :
    ¬(2 ≤ (findPath ⟨1, 1⟩ ⟨1, 1⟩ [] ⟨100, 100⟩).length ∧
      (findPath ⟨1, 1⟩ ⟨1, 1⟩ [] ⟨100, 100⟩).head? = some ⟨1, 1⟩ ∧
      (findPath ⟨1, 1⟩ ⟨1, 1⟩ [] ⟨100, 100⟩).getLast? = some ⟨1, 1⟩) := by
  decide

instance freeP_decidable (obstacles : List Rect) (bounds : Bounds)
    (p : Int × Int) : Decidable (freeP obstacles bounds p) :=
  inferInstanceAs (Decidable (isObstacle p.1 p.2 obstacles = false ∧
    ¬(p.1 < 0 ∨ p.2 < 0 ∨ p.1 > bounds.width ∨ p.2 > bounds.height)))

instance routeOK_decidable (obstacles : List Rect) (bounds : Bounds)
    (sx sy : Int) (v : List Point) :
    Decidable (RouteOK obstacles bounds sx sy v) :=
  inferInstanceAs (Decidable (v.head? = some ⟨sx, sy⟩ ∧
    List.Chain' (fun a b => adjP (pointPos a) (pointPos b)) v ∧
    ∀ q ∈ v, (q.x = sx ∧ q.y = sy) ∨ freeP obstacles bounds (q.x, q.y)))

/-! ### Witnesses: the claim theorems applied at concrete inputs -/

theorem C1_witness :
    1 ≤ (findPath ⟨1, 1⟩ ⟨1, 1⟩ [] ⟨100, 100⟩).length ∧
    findPath ⟨1, 1⟩ ⟨1, 1⟩ [] ⟨100, 100⟩ = [⟨0, 0⟩] :=
  ⟨(C1_amended ⟨1, 1⟩ ⟨1, 1⟩ [] ⟨100, 100⟩).1,
   ((C1_amended ⟨1, 1⟩ ⟨1, 1⟩ [] ⟨100, 100⟩).2.2 [⟨0, 0⟩] (by decide)).1⟩

theorem C2_witness :
    (⟨"u", "u", [⟨"a", "int", true, false, false, none⟩]⟩ : Table) ∈
        (parseSQL "CREATE TABLE u (a int PRIMARY KEY)").tables ∧
    (⟨"a", "int", true, false, false, none⟩ : Column).isNullable = false :=
  ⟨by decide,
   C2_amended.1 "CREATE TABLE u (a int PRIMARY KEY)" (by decide)
     ⟨"u", "u", [⟨"a", "int", true, false, false, none⟩]⟩ (by decide)
     ⟨"a", "int", true, false, false, none⟩ (by decide) (by decide)⟩

theorem C3_witness :
    (⟨"u", "u", [⟨"a", "int", false, true, true, some ⟨"b", "c"⟩⟩]⟩ : Table) ∈
        (parseSQL "CREATE TABLE u (a int REFERENCES b(c))").tables ∧
    (⟨"a", "int", false, true, true, some ⟨"b", "c"⟩⟩ : Column).references.isSome = true :=
  ⟨by decide,
   C3_amended.1 "CREATE TABLE u (a int REFERENCES b(c))" (by decide)
     ⟨"u", "u", [⟨"a", "int", false, true, true, some ⟨"b", "c"⟩⟩]⟩ (by decide)
     ⟨"a", "int", false, true, true, some ⟨"b", "c"⟩⟩ (by decide) (by decide)⟩

theorem C4_witness :
    (processClause "t".toList [] [] "a int".toList).1.map Column.isNullable = [true] ∧
    (parseJSONSchema (.doc (some [⟨"a", [⟨"x", "int4", none, none, none⟩]⟩]))).schema.tables.map
      (fun t => t.columns.map Column.isNullable) = [[true]] := by
  constructor
  · rcases C4_amended.1 "t".toList [] [] "a int".toList "a".toList "int".toList
      (by decide) (by decide) (by decide) (by decide) (by decide) (by decide) with
      ⟨col, heq, hnul⟩
    rw [heq]
    simp [hnul]
  · decide

theorem C5_witness :
    findPath ⟨0, 0⟩ ⟨0, 0⟩ [] ⟨40, 40⟩ = [⟨0, 0⟩] ∧
    ([(⟨0, 0⟩ : Point)].length ≤ [(⟨0, 0⟩ : Point)].length) := by
  have h := C5_optimal ⟨0, 0⟩ ⟨0, 0⟩ [] ⟨40, 40⟩ [⟨0, 0⟩] (by decide)
  refine ⟨h.1, h.2 [⟨0, 0⟩] ⟨0, 0⟩ ⟨by decide, List.chain'_singleton _, by decide⟩
    (by decide) (by decide) (by decide)⟩

theorem C6_witness :
    ¬((100 : Int) - 20 < 0 ∧ (0 : Int) < 100 + 50 + 20 ∧
      (100 : Int) - 20 < 0 ∧ (0 : Int) < 100 + 50 + 20) :=
  C6_obstacle_avoidance ⟨0, 0⟩ ⟨0, 0⟩ [⟨100, 100, 50, 50⟩] ⟨40, 40⟩ [⟨0, 0⟩]
    (by decide) (by decide) ⟨0, 0⟩ (by decide) ⟨100, 100, 50, 50⟩ (by decide)

theorem C7_witness :
    smoothPath (smoothPath [(⟨0, 0⟩ : Point), ⟨5, 5⟩]) =
      smoothPath [(⟨0, 0⟩ : Point), ⟨5, 5⟩] ∧
    smoothPath [(⟨0, 0⟩ : Point), ⟨5, 5⟩] = [⟨0, 0⟩, ⟨5, 5⟩] :=
  ⟨C7_smoothPath_idempotent.1 [⟨0, 0⟩, ⟨5, 5⟩],
   C7_smoothPath_idempotent.2 [⟨0, 0⟩, ⟨5, 5⟩] (by decide)⟩

theorem C9_witness :
    (parseSQL "no ddl").tables = [] ∧ (parseSQL "no ddl").relationships = [] ∧
    (parseJSONSchema .malformed).schema.tables = [] ∧
    (importDiagram .malformed).data = none := by
  have h1 := C9_error_empty.1 "no ddl" (by decide)
  have h2 := C9_error_empty.2.1 .malformed (by decide)
  have h3 := C9_error_empty.2.2 .malformed (by decide)
  exact ⟨h1.1, h1.2, h2.1, h3⟩

theorem C10_witness :
    findPath ⟨0, 0⟩ ⟨0, 0⟩ [] ⟨40, 40⟩ = [⟨0, 0⟩] ∧
    ((20 : Int) ∣ (0 : Int) ∧ (20 : Int) ∣ (0 : Int)) := by
  have h := C10_grid_walk ⟨0, 0⟩ ⟨0, 0⟩ [] ⟨40, 40⟩ [⟨0, 0⟩] (by decide)
  exact ⟨h.1, h.2.1 ⟨0, 0⟩ (by decide)⟩

/-! ### Fuel sufficiency

The source loop terminates because every iteration moves a fresh position
into the closed set and only finitely many positions can ever be opened.
These lemmas show `searchFuel` exceeds that number, so the fuel-based
embedding never hits its `none` case and agrees with the source loop. -/

/-- The grid positions the search can ever open: the in-bounds lattice
points plus the (possibly out-of-bounds) snapped start. -/
def allowedPos (bounds : Bounds) (sx sy : Int) : Finset (Int × Int) :=
  ((Finset.range (bounds.width.toNat / 20 + 1)) ×ˢ
    (Finset.range (bounds.height.toNat / 20 + 1))).image
      (fun ab => ((ab.1 : Int) * 20, (ab.2 : Int) * 20)) ∪ {(sx, sy)}

theorem allowedPos_card (bounds : Bounds) (sx sy : Int) :
    (allowedPos bounds sx sy).card ≤
      (bounds.width.toNat / 20 + 1) * (bounds.height.toNat / 20 + 1) + 1 := by
  refine le_trans (Finset.card_union_le _ _) ?_
  have h1 : (((Finset.range (bounds.width.toNat / 20 + 1)) ×ˢ
      (Finset.range (bounds.height.toNat / 20 + 1))).image
        (fun ab : Nat × Nat => ((ab.1 : Int) * 20, (ab.2 : Int) * 20))).card ≤
      ((Finset.range (bounds.width.toNat / 20 + 1)) ×ˢ
        (Finset.range (bounds.height.toNat / 20 + 1))).card :=
    Finset.card_image_le
  rw [Finset.card_product, Finset.card_range, Finset.card_range] at h1
  simpa using Nat.add_le_add h1 (le_refl 1)

theorem mem_allowedPos (bounds : Bounds) (sx sy : Int) (q : Int × Int)
    (hdx : (20 : Int) ∣ q.1) (hdy : (20 : Int) ∣ q.2) (hx0 : 0 ≤ q.1)
    (hxw : q.1 ≤ bounds.width) (hy0 : 0 ≤ q.2) (hyh : q.2 ≤ bounds.height) :
    q ∈ allowedPos bounds sx sy := by
  apply Finset.mem_union_left
  apply Finset.mem_image.mpr
  obtain ⟨a, ha⟩ := hdx
  obtain ⟨b, hb⟩ := hdy
  refine ⟨(a.toNat, b.toNat), ?_, ?_⟩
  · apply Finset.mem_product.mpr
    constructor <;> apply Finset.mem_range.mpr <;> omega
  · have h1 : ((a.toNat : Int)) = a := by omega
    have h2 : ((b.toNat : Int)) = b := by omega
    exact Prod.ext (by simp only [h1]; omega) (by simp only [h2]; omega)

theorem NodeWF_pos_allowed (obstacles : List Rect) (bounds : Bounds)
    (sx sy ex ey : Int) (hdvdx : (20 : Int) ∣ sx) (hdvdy : (20 : Int) ∣ sy)
    (n : Node) (hwf : NodeWF obstacles bounds sx sy ex ey n) :
    n.pos ∈ allowedPos bounds sx sy := by
  cases n with
  | root x y g h f =>
    rcases hwf with ⟨rfl, rfl, -⟩
    exact Finset.mem_union_right _ (Finset.mem_singleton_self _)
  | child x y g h f par =>
    have hfree := hwf.2.2.1
    have hlat := NodeWF_lattice obstacles bounds sx sy ex ey
      (Node.child x y g h f par) hwf
    simp only [Node.x_child, Node.y_child] at hlat
    have hb := hfree.2
    push_neg at hb
    refine mem_allowedPos bounds sx sy (x, y) ?_ ?_ ?_ ?_ ?_ ?_
    · obtain ⟨l1, l2⟩ := hlat
      omega
    · obtain ⟨l1, l2⟩ := hlat
      omega
    · exact le_of_not_lt (fun hc => by omega)
    · exact hb.2.2.1
    · exact le_of_not_lt (fun hc => by omega)
    · exact hb.2.2.2

/-- Closed-set bookkeeping for the termination bound. -/
structure CInv (bounds : Bounds) (sx sy : Int) (closed : List (Int × Int)) : Prop where
  closedNodup : closed.Nodup
  closedAllowed : ∀ p ∈ closed, p ∈ allowedPos bounds sx sy

theorem aStarLoop_fuel_aux (obstacles : List Rect) (bounds : Bounds)
    (sx sy ex ey : Int) (hdvdx : (20 : Int) ∣ sx) (hdvdy : (20 : Int) ∣ sy) :
    ∀ (fuel : Nat) (openL : List Node) (closed : List (Int × Int)),
      SInv obstacles bounds sx sy ex ey openL closed →
      CInv bounds sx sy closed →
      (allowedPos bounds sx sy).card + 1 ≤ fuel + closed.length →
      aStarLoop obstacles bounds ex ey fuel openL closed ≠ none := by
  intro fuel
  induction fuel with
  | zero =>
    intro openL closed hInv hC hcard
    exfalso
    have h1 : closed.length ≤ (allowedPos bounds sx sy).card := by
      rw [← List.toFinset_card_of_nodup hC.closedNodup]
      apply Finset.card_le_card
      intro p hp
      exact hC.closedAllowed p (List.mem_toFinset.mp hp)
    omega
  | succ fuel ih =>
    intro openL closed hInv hC hcard
    cases openL with
    | nil => simp [aStarLoop]
    | cons n0 ns =>
      simp only [aStarLoop]
      split
      · simp
      · next hGoal =>
        have hcur : (selectMin n0 ns).1 ∈ n0 :: ns :=
          (selectMin_perm n0 ns).mem_iff.mp (List.mem_cons_self _ _)
        have hwfc := hInv.wf _ hcur
        have hncl := hInv.openNotClosed _ hcur
        refine ih _ _ (SInv_step obstacles bounds sx sy ex ey n0 ns closed hInv hGoal)
          ⟨?_, ?_⟩ ?_
        · exact List.nodup_cons.mpr ⟨hncl, hC.closedNodup⟩
        · intro p hp
          rcases List.mem_cons.mp hp with rfl | hp2
          · exact NodeWF_pos_allowed obstacles bounds sx sy ex ey hdvdx hdvdy _ hwfc
          · exact hC.closedAllowed p hp2
        · simp only [List.length_cons]
          omega

/-- `findPath`'s fuel is always sufficient: the loop never returns `none`,
so the embedding coincides with the source's unbounded loop. -/
theorem aStarLoop_fuel_sufficient (start endPt : Point) (obstacles : List Rect)
    (bounds : Bounds) :
    aStarLoop obstacles bounds (snapToGrid endPt.x) (snapToGrid endPt.y)
      (searchFuel bounds)
      [Node.root (snapToGrid start.x) (snapToGrid start.y) 0 0 0] [] ≠ none := by
  refine aStarLoop_fuel_aux obstacles bounds (snapToGrid start.x) (snapToGrid start.y)
    (snapToGrid endPt.x) (snapToGrid endPt.y) (snap_dvd _) (snap_dvd _)
    (searchFuel bounds) _ [] (SInv_init obstacles bounds _ _ _ _) ⟨List.nodup_nil, ?_⟩ ?_
  · intro p hp
    cases hp
  · have := allowedPos_card bounds (snapToGrid start.x) (snapToGrid start.y)
    simp only [List.length_nil, searchFuel]
    omega

end SchemaViz
